import Mathlib

/-!
# Verification of the vett skill installer core

A shallow embedding, in Lean 4, of the security- and identity-critical parts
of the vett CLI: the path-safety predicates, the name sanitizer, the skill
source URL parser, the symlink installer and its status checker, the
signature-gated install pipeline, the registry response validator, and the
installed-skill index.  Each definition is translated from the corresponding
TypeScript source; theorems at the end settle the specified properties.

Strings are modelled with Lean `String` (a list of unicode characters); the
JavaScript string operations used by the source (`toLowerCase`, `split`,
`trim`, prefix and suffix tests, regex character classes) are given explicit
ASCII-faithful models below.
-/

set_option maxHeartbeats 1000000

deriving instance DecidableEq for Except

namespace Vett

/-! ## JavaScript string model -/

/-- One character of JS `toLowerCase`, for the ASCII range: uppercase ASCII
letters map to the corresponding lowercase letter, other characters are kept. -/
def lowerChar (c : Char) : Char :=
  if 65 ≤ c.toNat ∧ c.toNat ≤ 90 then Char.ofNat (c.toNat + 32) else c

/-- JS `String.prototype.toLowerCase`, modelled on the ASCII range. -/
def jsToLower (s : String) : String :=
  ⟨s.data.map lowerChar⟩

/-- JS whitespace recognized by `String.prototype.trim` (ASCII part). -/
def isJsSpace (c : Char) : Bool :=
  c = ' ' ∨ c = '\t' ∨ c = '\n' ∨ c = '\r' ∨ c = '\x0b' ∨ c = '\x0c'

/-- JS `String.prototype.trim`. -/
def jsTrim (s : String) : String :=
  ⟨((s.data.dropWhile isJsSpace).reverse.dropWhile isJsSpace).reverse⟩

/-- JS `String.prototype.split(sep)` for a single-character separator:
splits at every occurrence, keeping empty chunks. -/
def splitChar (c : Char) : List Char → List (List Char)
  | [] => [[]]
  | x :: xs =>
    let r := splitChar c xs
    if x = c then [] :: r
    else
      match r with
      | [] => [[x]]
      | h :: t => (x :: h) :: t

/-- `s.split(c)` returning strings. -/
def jsSplit (c : Char) (s : String) : List String :=
  (splitChar c s.data).map (fun l => ⟨l⟩)

/-- `.filter(Boolean)` over a list of strings: drop empty strings. -/
def filterTruthy (l : List String) : List String :=
  l.filter (fun s => s ≠ "")

/-- JS `Array.prototype.join(sep)` for string lists. -/
def joinSep (sep : String) : List String → String
  | [] => ""
  | [x] => x
  | x :: xs => x ++ sep ++ joinSep sep xs

/-- Boolean string-prefix test (JS `startsWith`). -/
def jsStartsWith (pre s : String) : Bool :=
  pre.data.isPrefixOf s.data

/-- Boolean string-suffix test (JS regex `x$` anchors). -/
def jsEndsWith (suf s : String) : Bool :=
  suf.data.isSuffixOf s.data

/-- `s.substring(0, n)` / truncation. -/
def jsTake (n : Nat) (s : String) : String :=
  ⟨s.data.take n⟩

/-- Drop the last `n` characters of a string. -/
def dropRight (n : Nat) (s : String) : String :=
  ⟨s.data.take (s.data.length - n)⟩

/-! ## Path Safety Guard

From `packages/core/src/schemas.ts` (`isSafePathSegment`) and the skill
manifest module (`isPathSafe`). -/

/-- Character class `[a-zA-Z0-9._-]` of the segment allowlist regex. -/
def isSegmentChar (c : Char) : Bool :=
  ('a' ≤ c ∧ c ≤ 'z') ∨ ('A' ≤ c ∧ c ≤ 'Z') ∨ ('0' ≤ c ∧ c ≤ '9') ∨
    c = '.' ∨ c = '_' ∨ c = '-'

/-- Does the character list contain two consecutive dots (JS `includes(morp)`
with the two-character needle of the traversal check)? -/
def hasDotDot : List Char → Bool
  | [] => false
  | [_] => false
  | a :: b :: t => (a = '.' ∧ b = '.') ∨ hasDotDot (b :: t)

/-- `isSafePathSegment` from `packages/core/src/schemas.ts`:
positive allowlist for a single filesystem path segment. -/
def isSafePathSegment (value : String) : Bool :=
  if value = "" then false
  else if value = "." then false
  else if value = ".." then false
  else if hasDotDot value.data then false
  else if ¬ (value.data ≠ [] ∧ value.data.all isSegmentChar) then false
  else true

/-- The safe-path character class of `SAFE_PATH_REGEX`: the segment
characters plus forward slash and backslash. -/
def isSafePathChar (c : Char) : Bool :=
  isSegmentChar c ∨ c = '/' ∨ c = '\\'

/-- Does the list start with a path separator (slash or backslash)? -/
def headIsSep : List Char → Bool
  | [] => false
  | c :: _ => c = '/' ∨ c = '\\'

/-- Does the list start with a Windows drive letter (a letter followed by
a colon)? -/
def hasDriveLetterPrefix : List Char → Bool
  | c :: d :: _ => c.isAlpha ∧ d = ':'
  | _ => false

/-- `SAFE_PATH_REGEX` from the skill manifest module: no two consecutive
dots anywhere, no leading separator, and one or more safe-path characters. -/
def safePathRegexTest (l : List Char) : Bool :=
  (¬ hasDotDot l) ∧ (¬ headIsSep l) ∧ l ≠ [] ∧ l.all isSafePathChar

/-- `isPathSafe` from the skill manifest module: validates a (possibly
multi-segment) relative file path taken from a skill manifest. -/
def isPathSafe (filePath : String) : Bool :=
  if filePath = "" then false
  else if filePath.data.contains '\x00' then false
  else if jsStartsWith "/" filePath ∨ jsStartsWith "\\" filePath then false
  else if hasDriveLetterPrefix filePath.data then false
  else if hasDotDot filePath.data then false
  else if ((splitChar '/' filePath.data).flatMap (splitChar '\\')).any
            (fun seg => seg = ['.', '.']) then false
  else safePathRegexTest filePath.data

/-! ## Name Sanitizer (`sanitizeName` from the installer module) -/

/-- Character class `[a-z0-9._]` kept by the sanitizer. -/
def isSanChar (c : Char) : Bool :=
  ('a' ≤ c ∧ c ≤ 'z') ∨ ('0' ≤ c ∧ c ≤ '9') ∨ c = '.' ∨ c = '_'

/-- Worker for the run-collapsing replace; the flag records whether the
previous character already belonged to a replaced run. -/
def collapseGo : List Char → Bool → List Char
  | [], _ => []
  | c :: t, inRun =>
    if isSanChar c then c :: collapseGo t false
    else if inRun then collapseGo t true
    else '-' :: collapseGo t true

/-- Global regex replace of `[^a-z0-9._]+` by a single hyphen. -/
def collapseRuns (l : List Char) : List Char :=
  collapseGo l false

/-- Characters stripped from both edges by `^[.\-]+|[.\-]+$`. -/
def isDotDash (c : Char) : Bool :=
  c = '.' ∨ c = '-'

/-- Global regex replace of `^[.\-]+|[.\-]+$` by the empty string. -/
def stripEdges (l : List Char) : List Char :=
  ((l.dropWhile isDotDash).reverse.dropWhile isDotDash).reverse

/-- `sanitizeName` from the installer module: lowercase, collapse runs of
characters outside `[a-z0-9._]` to one hyphen, strip leading/trailing dots
and hyphens, truncate to 255 characters, with a fixed fallback for an empty
result. -/
def sanitizeName (name : String) : String :=
  let sanitized : String := ⟨stripEdges (collapseRuns (jsToLower name).data)⟩
  let truncated := jsTake 255 sanitized
  if truncated = "" then "unnamed-skill" else truncated


/-! ## Identity Resolver (`url-parser.ts`)

The skill source URL parser.  `new URL(...)` is modelled for `http`/`https`
URLs by splitting scheme, authority, path, and query; the WHATWG details not
exercised by skill sources (percent-encoding normalization, userinfo, ports,
IDN) are out of the model.  The external `psl` registrable-domain lookup is
modelled by a fixed rule list with the public-suffix algorithm. -/

/-- The result of parsing a skill source URL (interface `ParsedSkillUrl`). -/
structure ParsedSkillUrl where
  host : String
  id : String
  owner : String
  repo : Option String
  skill : Option String
  path : Option String
  ref : Option String
  sourceUrl : String
deriving Repr, DecidableEq

/-- `convertSshToHttps`: rewrite a `git@host:path` SSH remote to an
https-shaped URL, mirroring the anchored regex with a `[^:]+` host group and
a `.+` path group. -/
def convertSshToHttps (sshUrl : String) : Except String String :=
  if jsStartsWith "git@" sshUrl then
    let afterAt := sshUrl.data.drop 4
    let host := afterAt.takeWhile (fun c => c ≠ ':')
    match afterAt.drop host.length with
    | ':' :: path =>
      if host ≠ [] ∧ path ≠ [] ∧ ¬ path.contains '\n' then
        .ok ("https://" ++ (⟨host⟩ : String) ++ "/" ++ (⟨path⟩ : String))
      else .error ("Invalid SSH URL format: " ++ sshUrl)
    | _ => .error ("Invalid SSH URL format: " ++ sshUrl)
  else .error ("Invalid SSH URL format: " ++ sshUrl)

/-- JS word character or hyphen (the character class of the shorthand regex). -/
def isWordDashChar (c : Char) : Bool :=
  c.isAlpha ∨ c.isDigit ∨ c = '_' ∨ c = '-'

/-- Tail of the shorthand regex after the first segment: a slash followed by
at least one word character or hyphen. -/
def shorthandTail : List Char → Bool
  | '/' :: rest => rest.takeWhile isWordDashChar ≠ []
  | _ => false

/-- Prefix test for the shorthand regex (an `owner/repo` source ref). -/
def shorthandMatch (l : List Char) : Bool :=
  (l.takeWhile isWordDashChar ≠ []) ∧ shorthandTail (l.dropWhile isWordDashChar)

/-- `inferProtocol`: prepend a scheme to a URL that lacks one. -/
def inferProtocol (url : String) : String :=
  if jsStartsWith "github.com/" url then "https://" ++ url
  else if shorthandMatch url.data then "https://github.com/" ++ url
  else "https://" ++ url

/-- The parts of a parsed `URL` object used by the source. -/
structure JsURL where
  host : String
  pathname : String
  search : List Char
deriving Repr, DecidableEq

/-- Strip a leading `https://` or `http://` scheme. -/
def stripScheme (s : String) : Option (List Char) :=
  if jsStartsWith "https://" s then some (s.data.drop 8)
  else if jsStartsWith "http://" s then some (s.data.drop 7)
  else none

/-- Model of `new URL(s)` for http(s) URLs: authority up to the first slash,
question mark or hash; pathname up to the query or fragment (an empty path
normalizes to a single slash); query after the question mark. -/
def parseURL (s : String) : Except String JsURL :=
  match stripScheme s with
  | none => .error ("Invalid URL: " ++ s)
  | some rest =>
    let authority := rest.takeWhile (fun c => c ≠ '/' ∧ c ≠ '?' ∧ c ≠ '#')
    if authority = [] then .error ("Invalid URL: " ++ s)
    else
      let afterAuth := rest.drop authority.length
      let pathAndQuery := afterAuth.takeWhile (fun c => c ≠ '#')
      let path := pathAndQuery.takeWhile (fun c => c ≠ '?')
      let query := (pathAndQuery.drop path.length).drop 1
      .ok { host := jsToLower ⟨authority⟩
            pathname := if path = [] then "/" else ⟨path⟩
            search := query }

/-- `searchParams.get(key)` over the query string model. -/
def searchParamGet (key : String) (search : List Char) : Option String :=
  ((splitChar '&' search).filterMap (fun p =>
     let k := p.takeWhile (fun c => c ≠ '=')
     if (⟨k⟩ : String) = key then some ((⟨p.drop (k.length + 1)⟩ : String))
     else none)).head?

/-- `normalizeHost`: lowercase and strip a leading `www.`. -/
def normalizeHost (host : String) : String :=
  let lower := jsToLower host
  if jsStartsWith "www." lower then ⟨lower.data.drop 4⟩ else lower

/-- Modelled from the external `psl` library: a fixed sample of public
suffix rules, used by the registrable-domain computation. -/
def publicSuffixRules : List (List String) :=
  [["com"], ["org"], ["net"], ["io"], ["ai"], ["app"], ["dev"], ["sh"],
   ["co"], ["uk"], ["co", "uk"], ["github", "io"], ["vercel", "app"]]

/-- Modelled from the external `psl` library: registrable domain of a host,
via the public-suffix algorithm (longest matching rule plus one label),
falling back to the host itself when no rule strictly matches. -/
def getRegistrableDomain (host : String) : String :=
  let labels := jsSplit '.' host
  let matching := publicSuffixRules.filter
    (fun r => r.isSuffixOf labels ∧ r.length < labels.length)
  match matching.foldl
      (fun best r =>
        match best with
        | none => some r
        | some b => if b.length < r.length then some r else some b) none with
  | some r => joinSep "." (labels.drop (labels.length - r.length - 1))
  | none => host

/-- `stripGitSuffix`: drop a trailing `.git`. -/
def stripGitSuffix (name : String) : String :=
  if jsEndsWith ".git" name then dropRight 4 name else name

/-- Case-sensitive strip of a trailing `.md`. -/
def stripMd (s : String) : String :=
  if jsEndsWith ".md" s then dropRight 3 s else s

/-- Case-insensitive strip of a trailing `.md`. -/
def stripMdI (s : String) : String :=
  if jsEndsWith ".md" (jsToLower s) then dropRight 3 s else s

/-- Apply `stripMd` to the last element of a list. -/
def mapLastStripMd : List String → List String
  | [] => []
  | [x] => [stripMd x]
  | x :: y :: xs => x :: mapLastStripMd (y :: xs)

/-- `normalizeSkillPath`: lowercase the parts, strip a trailing `.md`, and
drop a leading `skills` segment when more segments follow. -/
def normalizeSkillPath (parts : List String) : String :=
  match parts with
  | [] => ""
  | _ :: _ =>
    let normalized := mapLastStripMd (parts.map jsToLower)
    match normalized with
    | "skills" :: r :: rest => joinSep "/" (r :: rest)
    | _ => joinSep "/" normalized

/-- `parseGitHostUrl`: parse the path segments of a GitHub URL into the
canonical identity. -/
def parseGitHostUrl (host : String) (pathParts : List String)
    (sourceUrl : String) : Except String ParsedSkillUrl :=
  match pathParts with
  | p0 :: p1 :: rest =>
    let owner := jsToLower p0
    let repo := jsToLower (stripGitSuffix p1)
    let refSkill : Option String × List String :=
      match rest with
      | [] => (none, [])
      | refType :: rtail =>
        if refType = "tree" ∨ refType = "blob" then (rtail.head?, rtail.drop 1)
        else (none, refType :: rtail)
    let ref := refSkill.1
    let skillPath := refSkill.2
    let path := if skillPath ≠ [] then some (joinSep "/" (skillPath.map stripMdI))
                else none
    let skill := normalizeSkillPath skillPath
    let id := joinSep "/" ([host, owner, repo] ++ (if skill ≠ "" then [skill] else []))
    .ok { host := host, id := id, owner := owner, repo := some repo
          skill := if skill ≠ "" then some skill else none
          path := path, ref := ref, sourceUrl := sourceUrl }
  | _ => .error ("Invalid " ++ host ++ " URL: need at least owner/repo")

/-- The legacy ClawHub download-URL form, driven by the `slug` and `tag`
query parameters. -/
def parseClawHubDownload (parsed : JsURL) (sourceUrl : String) :
    Except String ParsedSkillUrl :=
  match (searchParamGet "slug" parsed.search).map jsToLower with
  | some slug =>
    if slug = "" then
      .error "Invalid ClawHub URL: expected site URL or download URL with a slug parameter"
    else
      let tag := match searchParamGet "tag" parsed.search with
                 | some t => if t = "" then none else some t
                 | none => none
      .ok { host := "clawhub.ai", id := "clawhub.ai/clawhub/" ++ slug
            owner := "clawhub.ai", repo := some "clawhub", skill := some slug
            path := none, ref := tag, sourceUrl := sourceUrl }
  | none =>
    .error "Invalid ClawHub URL: expected site URL or download URL with a slug parameter"

/-- `parseClawHubUrl`: registry URLs; the site form is publisher and slug,
the legacy form carries the slug in the query. -/
def parseClawHubUrl (parsed : JsURL) (sourceUrl : String) :
    Except String ParsedSkillUrl :=
  match filterTruthy (jsSplit '/' parsed.pathname) with
  | [publisher, slug] =>
    if publisher ≠ "api" then
      let pub := jsToLower publisher
      let sl := jsToLower slug
      .ok { host := "clawhub.ai", id := "clawhub.ai/" ++ pub ++ "/" ++ sl
            owner := "clawhub.ai", repo := some pub, skill := some sl
            path := none, ref := none, sourceUrl := sourceUrl }
    else parseClawHubDownload parsed sourceUrl
  | _ => parseClawHubDownload parsed sourceUrl

/-- Split a nonempty list into its initial part and last element. -/
def splitLast : List String → Option (List String × String)
  | [] => none
  | [x] => some ([], x)
  | x :: y :: xs =>
    match splitLast (y :: xs) with
    | some (init, last) => some (x :: init, last)
    | none => none

/-- `owner.split('.')[0]`: the first label of the owner domain. -/
def hostBaseOf (owner : String) : String :=
  match jsSplit '.' owner with
  | [] => ""
  | b :: _ => b

/-- The repo/skill computation of `parseHttpPath`: the `skill.md`
directory-as-name convention and the named-file form. -/
def parseHttpRepoSkill (hostBase : String) : List String → Option String × String
  | [] => (none, hostBase)
  | [single] => (none, if single = "skill" then hostBase else single)
  | a :: b :: t =>
    match splitLast (a :: b :: t) with
    | some (parentPath, filename) =>
      if filename = "skill" then
        match parentPath with
        | [p] => (some p, p)
        | _ =>
          match splitLast parentPath with
          | some (pinit, plast) => (some (joinSep "/" pinit), plast)
          | none => (none, hostBase)
      else (some (joinSep "/" parentPath), filename)
    | none => (none, hostBase)

/-- `parseHttpPath`: identity fields from the path of a domain-hosted skill
URL. -/
def parseHttpPath (owner host : String) (normalized : List String)
    (sourceUrl : String) : ParsedSkillUrl :=
  let repoSkill := parseHttpRepoSkill (hostBaseOf owner) normalized
  let repo := repoSkill.1
  let skill := repoSkill.2
  let id := joinSep "/" ([host, owner] ++
    (match repo with | some r => [r] | none => []) ++ [skill])
  { host := host, id := id, owner := owner, repo := repo, skill := some skill
    path := none, ref := none, sourceUrl := sourceUrl }

/-- `parseHttpUrl`: domain-hosted skills; owner is the registrable domain,
with the well-known skills prefix stripped before the path conventions. -/
def parseHttpUrl (host : String) (pathParts : List String)
    (sourceUrl : String) : ParsedSkillUrl :=
  let owner := getRegistrableDomain host
  let normalized := mapLastStripMd (pathParts.map jsToLower)
  match normalized.findIdx? (fun s => s = ".well-known") with
  | some i =>
    if normalized.get? (i + 1) = some "skills" then
      parseHttpPath owner host (normalized.drop (i + 2)) sourceUrl
    else parseHttpPath owner host normalized sourceUrl
  | none => parseHttpPath owner host normalized sourceUrl

/-- `parseSkillUrl`: parse and normalize a skill source URL into a canonical
identity, routing by host. -/
def parseSkillUrl (url : String) : Except String ParsedSkillUrl :=
  let sourceUrl := url
  let trimmed := jsTrim url
  match (if jsStartsWith "git@" trimmed then convertSshToHttps trimmed
         else .ok trimmed : Except String String) with
  | .error e => .error e
  | .ok withScheme =>
    let normalized :=
      if ¬ (jsStartsWith "http://" withScheme ∨ jsStartsWith "https://" withScheme)
      then inferProtocol withScheme else withScheme
    match parseURL normalized with
    | .error _ => .error ("Invalid skill URL: " ++ url)
    | .ok parsed =>
      let host := normalizeHost parsed.host
      let pathParts := filterTruthy (jsSplit '/' parsed.pathname)
      if host = "github.com" then parseGitHostUrl "github.com" pathParts sourceUrl
      else if host = "clawhub.ai" then parseClawHubUrl parsed sourceUrl
      else .ok (parseHttpUrl host pathParts sourceUrl)


/-! ## Installer filesystem model (`installer.ts`)

Paths are canonical-form absolute paths, modelled as lists of segments; a
filesystem is a map from paths to entries.  Relative symlink contents may
carry parent-directory segments, resolved by `resolveFrom`.  The Node
primitives used by the installer (`lstat`, `readlink`, `rm`, `mkdir`
recursive, `symlink`, `cp` recursive, `path.resolve`, `path.relative`) are
modelled below. -/

/-- A filesystem path in canonical absolute form: its list of segments. -/
abbrev FsPath := List String

/-- The content stored by a symlink: an absolute target, or a target
relative to the link's own directory (possibly with parent segments). -/
inductive FsLinkTarget where
  | abs (p : List String)
  | rel (segs : List String)
deriving DecidableEq, Repr

/-- A filesystem entry: directory, regular file, or symbolic link. -/
inductive FsEntry where
  | dir : FsEntry
  | file : FsEntry
  | symlink (target : FsLinkTarget) : FsEntry
deriving DecidableEq, Repr

/-- A filesystem state. -/
abbrev Fs := FsPath → Option FsEntry

/-- One step of path normalization: a parent segment pops, a dot or empty
segment is skipped, any other segment is appended. -/
def normStep (acc : List String) (seg : String) : List String :=
  if seg = ".." then acc.dropLast
  else if seg = "." ∨ seg = "" then acc
  else acc ++ [seg]

/-- `path.normalize`/`path.resolve` on segment lists. -/
def normalizeSegs (p : List String) : List String :=
  p.foldl normStep []

/-- Resolve a symlink content against the directory containing the link
(`resolve(dirname(linkPath), target)`). -/
def resolveFrom (dir : FsPath) : FsLinkTarget → FsPath
  | .abs p => normalizeSegs p
  | .rel segs => normalizeSegs (dir ++ segs)

/-- Length of the longest common prefix of two segment lists. -/
def commonPrefixLen : List String → List String → Nat
  | a :: as, b :: bs => if a = b then commonPrefixLen as bs + 1 else 0
  | _, _ => 0

/-- `path.relative(fromDir, target)` for canonical absolute paths: climb out
of the non-shared part of `fromDir`, then descend into `target`. -/
def relSegs (fromDir target : FsPath) : List String :=
  List.replicate (fromDir.length - commonPrefixLen fromDir target) ".." ++
    target.drop (commonPrefixLen fromDir target)

/-- Store an entry at a path. -/
def setEntry (fs : Fs) (p : FsPath) (e : FsEntry) : Fs :=
  fun q => if q = p then some e else fs q

/-- `rm(p)`: remove the single entry at a path. -/
def rmKey (fs : Fs) (p : FsPath) : Fs :=
  fun q => if q = p then none else fs q

/-- `rm(p, recursive/force)`: remove the whole subtree rooted at a path. -/
def rmSubtree (fs : Fs) (p : FsPath) : Fs :=
  fun q => if p.isPrefixOf q then none else fs q

/-- `mkdir(p, recursive)`: create every missing ancestor of `p` (and `p`)
as a directory; existing entries are left alone. -/
def mkdirRec (fs : Fs) (p : FsPath) : Fs :=
  fun q => if q ≠ [] ∧ q.isPrefixOf p ∧ fs q = none then some .dir else fs q

/-- `cp(src, dst, recursive)`: mirror the subtree of `src` at `dst`. -/
def cpRec (fs : Fs) (src dst : FsPath) : Fs :=
  fun q => if dst.isPrefixOf q then fs (src ++ q.drop dst.length) else fs q

/-- The drift statuses reported by `checkSymlinkStatus`. -/
inductive SymlinkStatus where
  | ok | missing | broken | wrong_target | copy
deriving DecidableEq, Repr

/-- `checkSymlinkStatus` from the installer module: classify what sits at
`linkPath` against the expected canonical target. -/
def checkSymlinkStatus (fs : Fs) (linkPath expectedTarget : FsPath) : SymlinkStatus :=
  match fs linkPath with
  | none => .missing
  | some .dir => .copy
  | some .file => .copy
  | some (.symlink t) =>
    let resolvedTarget := resolveFrom linkPath.dropLast t
    if resolvedTarget ≠ normalizeSegs expectedTarget then .wrong_target
    else if fs resolvedTarget = none then .broken
    else .ok

/-- The creation step of `createSymlink` after any existing entry has been
cleared: ensure the parent directory exists, then store a link whose content
is relative to the parent (`relative(linkDir, target)`).  The link fails
(returns `false`, triggering the copy fallback) only if the target location
is still occupied. -/
def finishLink (fs : Fs) (target linkPath : FsPath) : Bool × Fs :=
  let linkDir := linkPath.dropLast
  let fs1 := mkdirRec fs linkDir
  if fs1 linkPath = none then
    (true, setEntry fs1 linkPath (.symlink (.rel (relSegs linkDir target))))
  else (false, fs1)

/-- `createSymlink` from the installer module: no-op on a self-referential
link, no-op when a symlink already resolves to the target, otherwise remove
whatever is in the way and create a relative symlink. -/
def createSymlink (fs : Fs) (target linkPath : FsPath) : Bool × Fs :=
  let resolvedTarget := normalizeSegs target
  if resolvedTarget = normalizeSegs linkPath then (true, fs)
  else
    match fs linkPath with
    | some (.symlink existing) =>
      if resolveFrom linkPath.dropLast existing = resolvedTarget then (true, fs)
      else finishLink (rmKey fs linkPath) target linkPath
    | some _ => finishLink (rmSubtree fs linkPath) target linkPath
    | none => finishLink fs target linkPath

/-- `isPathSafe(basePath, targetPath)` from the installer module: the
resolved target equals the resolved base or sits strictly below it. -/
def isPathSafeWithin (basePath targetPath : FsPath) : Bool :=
  (normalizeSegs basePath).isPrefixOf (normalizeSegs targetPath)

/-- One agent of the static registry (`AgentConfig` from `agents.ts`). -/
structure AgentConfig where
  name : String
  displayName : String
  skillsDir : FsPath
  globalSkillsDir : Option FsPath
deriving DecidableEq, Repr

/-- Installation mode: symlink, or recursive-copy fallback. -/
inductive InstallMode where
  | symlink | copy
deriving DecidableEq, Repr

/-- Result of one `installToAgent` call. -/
structure InstallResult where
  agent : String
  agentDisplayName : String
  path : FsPath
  mode : InstallMode
  success : Bool
  error : Option String
deriving DecidableEq, Repr

/-- The options record of `installToAgent` (`global` flag and `cwd`). -/
structure InstallOptions where
  globalScope : Option Bool
  cwd : FsPath
deriving DecidableEq, Repr

/-- `installToAgent` from the installer module: compute the agent target
directory, guard it with the base-containment check, ensure the base exists,
try a symlink, and fall back to a recursive copy. -/
def installToAgent (fs : Fs) (canonicalPath : FsPath) (skillName : String)
    (agent : AgentConfig) (options : InstallOptions) : InstallResult × Fs :=
  let isGlobal := options.globalScope.getD true
  if isGlobal ∧ agent.globalSkillsDir = none then
    ({ agent := agent.name, agentDisplayName := agent.displayName, path := []
       mode := .symlink, success := false
       error := some (agent.displayName ++ " does not support global skill installation") },
     fs)
  else
    let agentBase := if isGlobal then agent.globalSkillsDir.getD []
                     else options.cwd ++ agent.skillsDir
    let agentSkillDir := agentBase ++ [sanitizeName skillName]
    if ¬ isPathSafeWithin agentBase agentSkillDir then
      ({ agent := agent.name, agentDisplayName := agent.displayName, path := agentSkillDir
         mode := .symlink, success := false
         error := some "Invalid skill name: potential path traversal detected" },
       fs)
    else
      let fs1 := mkdirRec fs agentBase
      let res := createSymlink fs1 canonicalPath agentSkillDir
      if res.1 then
        ({ agent := agent.name, agentDisplayName := agent.displayName, path := agentSkillDir
           mode := .symlink, success := true, error := none },
         res.2)
      else
        let fs3 := rmSubtree res.2 agentSkillDir
        ({ agent := agent.name, agentDisplayName := agent.displayName, path := agentSkillDir
           mode := .copy, success := true, error := none },
         cpRec fs3 canonicalPath agentSkillDir)

/-! ## Signature verification and the add-command pipeline

From the Sigstore verification module (`verifyManifestOrThrow`) and the
post-download half of the `add` command.  The external `sigstore.verify`
call is a parameter (`sigOk`): the pipeline theorems hold for every possible
behavior of the external verifier.  Filesystem writes are modelled as the
effect lists carried by a successful result; an error result performs no
write. -/

/-- An opaque serialized Sigstore bundle as delivered by the registry. -/
structure SigstoreBundle where
  payload : String
deriving DecidableEq, Repr

/-- The version fields of the registry response used by the install path. -/
structure ApiVersion where
  version : String
  hash : String
  sigstoreBundle : Option SigstoreBundle
deriving DecidableEq, Repr

/-- Failures of the post-download install path. -/
inductive AddError where
  | invalidManifest
  | missingSignature
  | sigstoreVerificationFailed
deriving DecidableEq, Repr

/-- One file of a skill manifest. -/
structure ManifestFile where
  path : String
  content : String
deriving DecidableEq, Repr

/-- A validated skill manifest. -/
structure SkillManifest where
  schemaVersion : Nat
  files : List ManifestFile
deriving DecidableEq, Repr

/-- `verifySigstoreBundle`: hand the exact manifest bytes and the serialized
bundle to the external verifier; a rejection becomes an error. -/
def verifySigstoreBundle (sigOk : SigstoreBundle → List Nat → Bool)
    (manifestBytes : List Nat) (bundle : SigstoreBundle) : Except AddError Unit :=
  if sigOk bundle manifestBytes then .ok () else .error .sigstoreVerificationFailed

/-- `verifyManifestOrThrow` from the Sigstore verification module: a version
without a Sigstore bundle is rejected outright; otherwise the bundle is
verified against the manifest bytes. -/
def verifyManifestOrThrow (sigOk : SigstoreBundle → List Nat → Bool)
    (manifestBytes : List Nat) (version : ApiVersion) : Except AddError Unit :=
  match version.sigstoreBundle with
  | none => .error .missingSignature
  | some b => verifySigstoreBundle sigOk manifestBytes b

/-- `installSkillFiles`: the canonical-store writes performed for a
manifest under the skill directory. -/
def installSkillFiles (manifest : SkillManifest) (skillDir : FsPath) :
    List (FsPath × String) :=
  manifest.files.map (fun f => (skillDir ++ [f.path], f.content))

/-- The filesystem effects of a completed install: canonical-store file
writes, then agent-directory installs. -/
structure AddEffects where
  canonicalWrites : List (FsPath × String)
  agentInstalls : List FsPath
deriving DecidableEq, Repr

/-- The post-download install path of the `add` command: parse and validate
the downloaded manifest, verify the signature over the exact downloaded
bytes (`Buffer.from(manifestContent)`), and only then write the canonical
store and the agent directories.  `decode` models `JSON.parse` plus the
manifest schema check. -/
def addPipeline (decode : List Nat → Option SkillManifest)
    (sigOk : SigstoreBundle → List Nat → Bool)
    (manifestContent : List Nat) (version : ApiVersion)
    (skillDir : FsPath) (agentDirs : List FsPath) : Except AddError AddEffects :=
  match decode manifestContent with
  | none => .error .invalidManifest
  | some manifest =>
    match verifyManifestOrThrow sigOk manifestContent version with
    | .error e => .error e
    | .ok _ =>
      .ok { canonicalWrites := installSkillFiles manifest skillDir
            agentInstalls := agentDirs }

/-! ## Untrusted Response Validator (`registry-safety.ts`)

`formatZodIssues` is embedded exactly; the surrounding schema check is
modelled for the identity-bearing fields of the skill response
(`slug`, `owner`, `repo`, `name`), whose values feed later path
construction. -/

/-- One segment of a zod issue path: an object field or an array index. -/
inductive PathKey where
  | fld (s : String)
  | idx (n : Nat)
deriving DecidableEq, Repr

/-- Render one path segment (`path.join` stringifies numbers). -/
def keyStr : PathKey → String
  | .fld s => s
  | .idx n => toString n

/-- The slice of a zod issue consumed by `formatZodIssues`: only the path.
The TS interface declares exactly this field, so the formatted message can
depend on nothing else. -/
structure ZodIssue where
  path : List PathKey
deriving DecidableEq, Repr

/-- `formatZodIssues` from `registry-safety.ts`: join each issue path with
dots, drop empty paths, deduplicate preserving first occurrence, and name
the fields in a fixed message. -/
def formatZodIssues (issues : List ZodIssue) : String :=
  let paths := (issues.map (fun i => joinSep "." (i.path.map keyStr))).filter
    (fun s => s ≠ "")
  let uniquePaths := paths.eraseDups
  if uniquePaths ≠ [] then
    "Registry returned an invalid response (invalid fields: " ++
      joinSep ", " uniquePaths ++ ")."
  else "Registry returned an invalid response."

/-- The identity-bearing fields of a raw registry skill payload. -/
structure RawSkill where
  slug : String
  owner : String
  repo : Option String
  name : String
deriving DecidableEq, Repr

/-- `safePathSegmentSchema`: nonempty, at most 200 characters, and a safe
path segment. -/
def segSchemaOk (s : String) : Bool :=
  s ≠ "" ∧ s.data.length ≤ 200 ∧ isSafePathSegment s

/-- The nullable-safe-segment check applied to the `repo` field. -/
def repoOk : Option String → Bool
  | none => true
  | some s => segSchemaOk s

/-- Issues contributed by the nullable `repo` field. -/
def repoIssues : Option String → List ZodIssue
  | none => []
  | some s => if ¬ segSchemaOk s then [⟨[.fld "repo"]⟩] else []

/-- The issues produced by checking the identity-bearing fields of
`apiSkillSchema` (in declaration order): `slug` is a nonempty string;
`owner` and `name` are safe path segments; `repo` is a nullable safe path
segment. -/
def skillFieldIssues (r : RawSkill) : List ZodIssue :=
  (if r.slug = "" then [⟨[.fld "slug"]⟩] else []) ++
  (if ¬ segSchemaOk r.owner then [⟨[.fld "owner"]⟩] else []) ++
  repoIssues r.repo ++
  (if ¬ segSchemaOk r.name then [⟨[.fld "name"]⟩] else [])

/-- `validateSkillDetail` over the modelled fields: return the payload when
every check passes, otherwise throw the formatted message. -/
def validateSkillDetail (r : RawSkill) : Except String RawSkill :=
  match skillFieldIssues r with
  | [] => .ok r
  | i :: is => .error (formatZodIssues (i :: is))

/-- Field selector for the hyperproperty statement. -/
inductive SkillField where
  | slug | owner | repo | name
deriving DecidableEq, Repr

/-- Uniform read of one field of a raw payload. -/
def getField : SkillField → RawSkill → Option String
  | .slug, r => some r.slug
  | .owner, r => some r.owner
  | .repo, r => r.repo
  | .name, r => some r.name

/-- Is the value of one field accepted by its schema? -/
def fieldOk : SkillField → RawSkill → Bool
  | .slug, r => r.slug ≠ ""
  | .owner, r => segSchemaOk r.owner
  | .repo, r => repoOk r.repo
  | .name, r => segSchemaOk r.name

/-! ## Install index (`config.ts`) -/

/-- One record of the install index (`InstalledSkill`). -/
structure InstalledSkill where
  owner : String
  repo : Option String
  name : String
  version : String
  installedAt : Nat
  path : String
  slug : Option String
  agents : List String
  scope : String
deriving DecidableEq, Repr

/-- The identity key of an index record. -/
def skillKey (s : InstalledSkill) : String × Option String × String :=
  (s.owner, s.repo, s.name)

/-- `addInstalledSkill` from `config.ts`: replace the record with the same
owner, repo and name in place, or append a new record. -/
def addInstalledSkill (index : List InstalledSkill) (skill : InstalledSkill) :
    List InstalledSkill :=
  match index.findIdx? (fun s =>
      s.owner = skill.owner ∧ s.repo = skill.repo ∧ s.name = skill.name) with
  | some i => index.set i skill
  | none => index ++ [skill]

/-- `removeInstalledSkill` from `config.ts`: drop every record with the
given owner, repo and name. -/
def removeInstalledSkill (index : List InstalledSkill) (owner : String)
    (repo : Option String) (name : String) : List InstalledSkill :=
  index.filter (fun s => ¬ (s.owner = owner ∧ s.repo = repo ∧ s.name = name))

/-- One mutation of the install index. -/
inductive IndexOp where
  | add (skill : InstalledSkill)
  | remove (owner : String) (repo : Option String) (name : String)

/-- Apply one mutation. -/
def applyOp (index : List InstalledSkill) : IndexOp → List InstalledSkill
  | .add s => addInstalledSkill index s
  | .remove o r n => removeInstalledSkill index o r n

/-- Apply a sequence of mutations left to right. -/
def applyOps (index : List InstalledSkill) (ops : List IndexOp) :
    List InstalledSkill :=
  ops.foldl applyOp index


/-- No uppercase ASCII letter. -/
def noUpperChar (c : Char) : Bool :=
  ¬ (65 ≤ c.toNat ∧ c.toNat ≤ 90)

/-- A string containing no uppercase ASCII letter (the observable meaning
of being lowercased). -/
def noUpperAscii (s : String) : Bool :=
  s.data.all noUpperChar

/-- A well-formed source segment for the identity-stability property: a
nonempty run of word characters or hyphens (the shorthand character
class). -/
def segPlain (s : String) : Prop :=
  s.data ≠ [] ∧ s.data.all isWordDashChar = true

instance (s : String) : Decidable (segPlain s) := by
  unfold segPlain
  infer_instance

/-- The character-list form of a slash-joined path. -/
def joinSlashData : List String → List Char
  | [] => []
  | [a] => a.data
  | a :: b :: t => a.data ++ '/' :: joinSlashData (b :: t)

/-- Characters appearing in a URL path chunk of the stability theorem:
word characters, hyphens, and dots (for the `.git` suffix). -/
def urlSegChar (c : Char) : Bool :=
  isWordDashChar c ∨ c = '.'

/-- A canonical path: every segment is a plain name (no `..`, `.` or empty
segment), so `normalize`/`resolve` leave it unchanged. -/
def plainSegs (p : List String) : Prop :=
  ∀ s ∈ p, s ≠ ".." ∧ s ≠ "." ∧ s ≠ ""

instance (p : List String) : Decidable (plainSegs p) := by
  unfold plainSegs
  infer_instance

/-- The agent skills directory chosen by `installToAgent`/`getAgentSkillPath`
for a given agent and options. -/
def agentBaseOf (agent : AgentConfig) (options : InstallOptions) : FsPath :=
  if options.globalScope.getD true then agent.globalSkillsDir.getD []
  else options.cwd ++ agent.skillsDir


/-! ## Theorems -/

/-- C3 counterexample: `isPathSafe` accepts `a/b`, a string containing a
path separator and not matching the single-segment allowlist, so the claim
that it returns false on every string containing a path separator (and true
only on the segment character class) is false. -/
theorem isPathSafe_accepts_separator :
    isPathSafe "a/b" = true ∧ ("a/b").data.contains '/' = true ∧
      ("a/b").data.all isSegmentChar = false := by decide

/-- C3 (amended): the per-segment predicate `isSafePathSegment` accepts
exactly the nonempty strings over `[A-Za-z0-9._-]` that are not the single
dot and contain no two consecutive dots; every listed rejection (empty,
dot, dot-dot, traversal infix, separators, null bytes, reserved and shell
characters, non-ASCII, whitespace, absolute prefixes) is outside that set. -/
theorem isSafePathSegment_iff (s : String) :
    isSafePathSegment s = true ↔
      (s.data ≠ [] ∧ s.data.all isSegmentChar = true ∧ s ≠ "." ∧
        hasDotDot s.data = false) := by
  unfold isSafePathSegment
  by_cases h0 : s = ""
  · subst h0; decide
  rw [if_neg h0]
  by_cases h1 : s = "."
  · subst h1; decide
  rw [if_neg h1]
  by_cases h2 : s = ".."
  · subst h2; decide
  rw [if_neg h2]
  by_cases h3 : hasDotDot s.data = true
  · rw [if_pos h3]
    constructor
    · intro hc; exact absurd hc (by decide)
    · intro hc; rw [h3] at hc; exact absurd hc.2.2.2 (by decide)
  rw [if_neg h3]
  by_cases h4 : s.data ≠ [] ∧ s.data.all isSegmentChar = true
  · rw [if_neg (by simpa using h4)]
    simp only [Bool.not_eq_true] at h3
    simp [h1, h3, h4.1, h4.2]
  · rw [if_pos (by simpa using h4)]
    constructor
    · intro hc; exact absurd hc (by decide)
    · intro hc; exact absurd ⟨hc.1, hc.2.1⟩ h4

/-- C5: the git-host-with-ref scenario.  Parsing the tree URL yields the
expected identity fields; the leading `skills/` segment is dropped from the
skill name and the canonical id. -/
theorem parseSource_gitHostWithRef :
    (parseSkillUrl "https://github.com/acme/tools/tree/main/skills/hello").map
      (fun r => (r.host, r.owner, r.repo, r.ref, r.skill, r.id)) =
    Except.ok ("github.com", "acme", some "tools", some "main", some "hello",
      "github.com/acme/tools/hello") := by decide

/-- C4: `checkSymlinkStatus` classifies the link location exactly as
specified: `missing` when nothing exists there, `copy` when a real
(non-symlink) entry exists, and otherwise the link content is resolved
against the link directory and compared to the resolved expected target,
giving `wrong_target` on mismatch, `broken` when the resolved target does
not exist, and `ok` otherwise. -/
theorem checkSymlinkStatus_spec (fs : Fs) (linkPath expectedTarget : FsPath) :
    (fs linkPath = none →
      checkSymlinkStatus fs linkPath expectedTarget = .missing) ∧
    (fs linkPath = some .dir ∨ fs linkPath = some .file →
      checkSymlinkStatus fs linkPath expectedTarget = .copy) ∧
    (∀ t, fs linkPath = some (.symlink t) →
      (resolveFrom linkPath.dropLast t ≠ normalizeSegs expectedTarget →
        checkSymlinkStatus fs linkPath expectedTarget = .wrong_target) ∧
      (resolveFrom linkPath.dropLast t = normalizeSegs expectedTarget →
        (fs (resolveFrom linkPath.dropLast t) = none →
          checkSymlinkStatus fs linkPath expectedTarget = .broken) ∧
        (fs (resolveFrom linkPath.dropLast t) ≠ none →
          checkSymlinkStatus fs linkPath expectedTarget = .ok))) := by
  refine ⟨fun h => ?_, fun h => ?_, fun t ht => ⟨fun hne => ?_, fun heq => ⟨fun hb => ?_, fun hb => ?_⟩⟩⟩
  · simp [checkSymlinkStatus, h]
  · rcases h with h | h <;> simp [checkSymlinkStatus, h]
  · simp [checkSymlinkStatus, ht, hne]
  · rw [heq] at hb
    simp [checkSymlinkStatus, ht, heq, hb]
  · simp only [checkSymlinkStatus, ht]
    rw [if_neg (by simp [heq]), if_neg hb]

/-- C4 witness: on an empty filesystem the status is `missing`. -/
theorem checkSymlinkStatus_spec_witness :
    checkSymlinkStatus (fun _ => none) ["home", "a"] ["home", "b"] = .missing :=
  (checkSymlinkStatus_spec (fun _ => none) ["home", "a"] ["home", "b"]).1 rfl

/-- C2: a version without signature material is rejected with the
missing-signature error, and the error result carries no filesystem effect
(no canonical-store write, no agent install); moreover any run that does
produce effects verified its bundle against exactly the downloaded bytes
first. -/
theorem addPipeline_signature_gate (decode : List Nat → Option SkillManifest)
    (sigOk : SigstoreBundle → List Nat → Bool) (manifestContent : List Nat)
    (version : ApiVersion) (skillDir : FsPath) (agentDirs : List FsPath) :
    (version.sigstoreBundle = none →
      (∀ m, decode manifestContent = some m →
        addPipeline decode sigOk manifestContent version skillDir agentDirs =
          .error .missingSignature) ∧
      (∀ eff, addPipeline decode sigOk manifestContent version skillDir agentDirs ≠
        .ok eff)) ∧
    (∀ eff, addPipeline decode sigOk manifestContent version skillDir agentDirs =
        .ok eff →
      ∃ b, version.sigstoreBundle = some b ∧ sigOk b manifestContent = true) := by
  have key : ∀ eff, addPipeline decode sigOk manifestContent version skillDir agentDirs =
      .ok eff → ∃ b, version.sigstoreBundle = some b ∧ sigOk b manifestContent = true := by
    intro eff h
    unfold addPipeline verifyManifestOrThrow verifySigstoreBundle at h
    cases hd : decode manifestContent with
    | none => rw [hd] at h; exact Except.noConfusion h
    | some m =>
      rw [hd] at h
      cases hb : version.sigstoreBundle with
      | none => rw [hb] at h; exact Except.noConfusion h
      | some b =>
        rw [hb] at h
        dsimp only at h
        refine ⟨b, rfl, ?_⟩
        by_cases hs : sigOk b manifestContent = true
        · exact hs
        · rw [if_neg hs] at h
          exact Except.noConfusion h
  refine ⟨fun h => ⟨fun m hm => ?_, fun eff hok => ?_⟩, key⟩
  · unfold addPipeline verifyManifestOrThrow
    rw [hm, h]
  · rcases key eff hok with ⟨b, hb, _⟩
    rw [h] at hb
    exact Option.noConfusion hb

/-- C2 witness: a concrete unsigned version is refused. -/
theorem addPipeline_signature_gate_witness :
    addPipeline (fun _ => some ⟨1, []⟩) (fun _ _ => true) [1, 2, 3]
      ⟨"1.0.0", "hash", none⟩ ["store"] [["agent"]] = .error .missingSignature :=
  ((addPipeline_signature_gate (fun _ => some ⟨1, []⟩) (fun _ _ => true) [1, 2, 3]
      ⟨"1.0.0", "hash", none⟩ ["store"] [["agent"]]).1 rfl).1 ⟨1, []⟩ rfl


/-- C9: the validator's error message depends only on which fields failed,
never on the offending value: two payloads that agree outside one field and
are both invalid at that field produce the identical error message. -/
theorem validateSkillDetail_no_value_leak (f : SkillField) (r1 r2 : RawSkill)
    (hagree : ∀ g, g ≠ f → getField g r1 = getField g r2)
    (h1 : fieldOk f r1 = false) (h2 : fieldOk f r2 = false) :
    ∃ msg, validateSkillDetail r1 = .error msg ∧
      validateSkillDetail r2 = .error msg := by
  have hpair : skillFieldIssues r1 = skillFieldIssues r2 ∧ skillFieldIssues r1 ≠ [] := by
    cases f with
    | slug =>
      have ho := hagree .owner (by decide)
      have hr := hagree .repo (by decide)
      have hn := hagree .name (by decide)
      simp only [getField, Option.some.injEq] at ho hr hn
      simp only [fieldOk, decide_eq_false_iff_not, not_not] at h1 h2
      constructor
      · simp [skillFieldIssues, ho, hr, hn, h1, h2]
      · simp [skillFieldIssues, h1]
    | owner =>
      have hs := hagree .slug (by decide)
      have hr := hagree .repo (by decide)
      have hn := hagree .name (by decide)
      simp only [getField, Option.some.injEq] at hs hr hn
      simp only [fieldOk] at h1 h2
      constructor
      · simp [skillFieldIssues, hs, hr, hn, h1, h2]
      · simp [skillFieldIssues, h1]
    | repo =>
      have hs := hagree .slug (by decide)
      have ho := hagree .owner (by decide)
      have hn := hagree .name (by decide)
      simp only [getField, Option.some.injEq] at hs ho hn
      simp only [fieldOk] at h1 h2
      cases hr1 : r1.repo with
      | none => rw [hr1] at h1; exact absurd h1 (by decide)
      | some s =>
        cases hr2 : r2.repo with
        | none => rw [hr2] at h2; exact absurd h2 (by decide)
        | some s2 =>
          rw [hr1] at h1
          rw [hr2] at h2
          simp only [repoOk] at h1 h2
          constructor
          · simp [skillFieldIssues, hs, ho, hn, hr1, hr2, repoIssues, h1, h2]
          · simp [skillFieldIssues, hr1, repoIssues, h1]
    | name =>
      have hs := hagree .slug (by decide)
      have ho := hagree .owner (by decide)
      have hr := hagree .repo (by decide)
      simp only [getField, Option.some.injEq] at hs ho hr
      simp only [fieldOk] at h1 h2
      constructor
      · simp [skillFieldIssues, hs, hr, ho, h1, h2]
      · simp [skillFieldIssues, h1]
  rcases hpair with ⟨hissues, hne⟩
  cases hI : skillFieldIssues r1 with
  | nil => exact absurd hI hne
  | cons i is =>
    have hI2 : skillFieldIssues r2 = i :: is := hissues.symm.trans hI
    refine ⟨formatZodIssues (i :: is), ?_, ?_⟩
    · simp [validateSkillDetail, hI]
    · simp [validateSkillDetail, hI2]

/-- C9 witness: two payloads whose only difference is the (invalid) owner
value yield the same error message. -/
theorem validateSkillDetail_no_value_leak_witness :
    ∃ msg,
      validateSkillDetail ⟨"s", "bad owner", none, "n"⟩ = .error msg ∧
      validateSkillDetail ⟨"s", "token=hunter2;", none, "n"⟩ = .error msg :=
  validateSkillDetail_no_value_leak .owner
    ⟨"s", "bad owner", none, "n"⟩ ⟨"s", "token=hunter2;", none, "n"⟩
    (by intro g hg; cases g <;> first | rfl | exact absurd rfl hg)
    (by decide) (by decide)

/-- `List.set` is the identity when the stored value already sits there. -/
theorem set_eq_self_of_getElem {α : Type} {l : List α} {i : Nat} {a : α}
    (h : i < l.length) (ha : l[i] = a) : l.set i a = l := by
  induction l generalizing i with
  | nil => simp at h
  | cons x xs ih =>
    cases i with
    | zero => simp at ha; simp [List.set, ha]
    | succ j =>
      simp only [List.length_cons, Nat.succ_lt_succ_iff] at h
      simp only [List.getElem_cons_succ] at ha
      simp [List.set, ih h ha]

/-- C10: `addInstalledSkill` is an upsert on the (owner, repo, name) key:
when a record with the key exists it is replaced in place (the index keeps
its length), the new record is always present afterwards, and starting from
an index with pairwise-distinct keys, any sequence of `addInstalledSkill`
and `removeInstalledSkill` calls preserves key uniqueness. -/
theorem addInstalledSkill_key_pred (skill t : InstalledSkill) :
    (decide (t.owner = skill.owner ∧ t.repo = skill.repo ∧ t.name = skill.name) = true) ↔
      skillKey t = skillKey skill := by
  simp [skillKey, Prod.ext_iff]

theorem addInstalledSkill_length_of_mem (index : List InstalledSkill)
    (skill : InstalledSkill) (hex : ∃ s ∈ index, skillKey s = skillKey skill) :
    (addInstalledSkill index skill).length = index.length := by
  unfold addInstalledSkill
  cases hf : index.findIdx? (fun s =>
      s.owner = skill.owner ∧ s.repo = skill.repo ∧ s.name = skill.name) with
  | some i => simp
  | none =>
    rcases hex with ⟨s, hmem, hkey⟩
    rw [List.findIdx?_eq_none_iff] at hf
    have hfalse := hf s hmem
    have htrue := (addInstalledSkill_key_pred skill s).mpr hkey
    rw [hfalse] at htrue
    exact Bool.noConfusion htrue

theorem addInstalledSkill_mem (index : List InstalledSkill) (skill : InstalledSkill) :
    skill ∈ addInstalledSkill index skill := by
  unfold addInstalledSkill
  cases hf : index.findIdx? (fun s =>
      s.owner = skill.owner ∧ s.repo = skill.repo ∧ s.name = skill.name) with
  | some i =>
    show skill ∈ index.set i skill
    rw [List.findIdx?_eq_some_iff_getElem] at hf
    rcases hf with ⟨hi, _, _⟩
    have hlen : i < (index.set i skill).length := by simpa using hi
    have hmem := List.getElem_mem hlen
    rwa [List.getElem_set_self hlen] at hmem
  | none =>
    show skill ∈ index ++ [skill]
    simp

theorem addInstalledSkill_nodup (index : List InstalledSkill) (skill : InstalledSkill)
    (hnodup : (index.map skillKey).Nodup) :
    ((addInstalledSkill index skill).map skillKey).Nodup := by
  unfold addInstalledSkill
  cases hf : index.findIdx? (fun s =>
      s.owner = skill.owner ∧ s.repo = skill.repo ∧ s.name = skill.name) with
  | some i =>
    show ((index.set i skill).map skillKey).Nodup
    rw [List.findIdx?_eq_some_iff_getElem] at hf
    rcases hf with ⟨hi, hp, _⟩
    rw [addInstalledSkill_key_pred] at hp
    rw [List.map_set]
    rw [set_eq_self_of_getElem (by simpa using hi) (by simpa using hp)]
    exact hnodup
  | none =>
    show ((index ++ [skill]).map skillKey).Nodup
    rw [List.findIdx?_eq_none_iff] at hf
    have hnotin : skillKey skill ∉ index.map skillKey := by
      intro hmem
      rcases List.mem_map.mp hmem with ⟨s, hsmem, hskey⟩
      have hfalse := hf s hsmem
      have htrue := (addInstalledSkill_key_pred skill s).mpr hskey
      rw [hfalse] at htrue
      exact Bool.noConfusion htrue
    rw [List.map_append, List.nodup_append]
    refine ⟨hnodup, by simp, ?_⟩
    intro a ha hb
    simp only [List.map_cons, List.map_nil, List.mem_singleton] at hb
    subst hb
    exact hnotin ha

theorem removeInstalledSkill_nodup (index : List InstalledSkill) (owner : String)
    (repo : Option String) (name : String)
    (hnodup : (index.map skillKey).Nodup) :
    ((removeInstalledSkill index owner repo name).map skillKey).Nodup := by
  unfold removeInstalledSkill
  exact ((List.filter_sublist _).map skillKey).nodup hnodup

/-- C10: `addInstalledSkill` is an upsert on the (owner, repo, name) key:
when a record with the key exists the index keeps its length (the record is
replaced in place, nothing is appended), the new record is always present
afterwards, and starting from an index with pairwise-distinct keys, any
sequence of `addInstalledSkill` and `removeInstalledSkill` calls preserves
key uniqueness. -/
theorem addInstalledSkill_upsert
    (index : List InstalledSkill) (skill : InstalledSkill) (ops : List IndexOp)
    (hnodup : (index.map skillKey).Nodup) :
    ((∃ s ∈ index, skillKey s = skillKey skill) →
      (addInstalledSkill index skill).length = index.length) ∧
    skill ∈ addInstalledSkill index skill ∧
    ((applyOps index ops).map skillKey).Nodup := by
  refine ⟨addInstalledSkill_length_of_mem index skill,
    addInstalledSkill_mem index skill, ?_⟩
  induction ops generalizing index with
  | nil => simpa [applyOps] using hnodup
  | cons op rest ih =>
    have hstep : ((applyOp index op).map skillKey).Nodup := by
      cases op with
      | add s => exact addInstalledSkill_nodup index s hnodup
      | remove o r n => exact removeInstalledSkill_nodup index o r n hnodup
    simpa [applyOps] using ih (applyOp index op) hstep

/-- C10 witness: replacing the sole record with a same-key record keeps one
entry, the record is present, and keys stay unique. -/
theorem addInstalledSkill_upsert_witness :
    (addInstalledSkill
        [⟨"o", some "r", "n", "1.0", 0, "p", none, [], "global"⟩]
        ⟨"o", some "r", "n", "2.0", 0, "p", none, [], "global"⟩).length = 1 ∧
    (⟨"o", some "r", "n", "2.0", 0, "p", none, [], "global"⟩ : InstalledSkill) ∈
      addInstalledSkill
        [⟨"o", some "r", "n", "1.0", 0, "p", none, [], "global"⟩]
        ⟨"o", some "r", "n", "2.0", 0, "p", none, [], "global"⟩ ∧
    ((applyOps [⟨"o", some "r", "n", "1.0", 0, "p", none, [], "global"⟩]
        [IndexOp.add ⟨"o", some "r", "n", "2.0", 0, "p", none, [], "global"⟩]).map
      skillKey).Nodup := by
  have h := addInstalledSkill_upsert
    [⟨"o", some "r", "n", "1.0", 0, "p", none, [], "global"⟩]
    ⟨"o", some "r", "n", "2.0", 0, "p", none, [], "global"⟩
    [IndexOp.add ⟨"o", some "r", "n", "2.0", 0, "p", none, [], "global"⟩]
    (by decide)
  exact ⟨h.1 ⟨⟨"o", some "r", "n", "1.0", 0, "p", none, [], "global"⟩, by decide, by decide⟩,
    h.2.1, h.2.2⟩


theorem string_data_eq_nil_iff (s : String) : s.data = [] ↔ s = "" := by
  constructor
  · intro h
    apply String.ext
    simpa using h
  · intro h
    subst h
    rfl

theorem mem_collapseGo {l : List Char} {b : Bool} {c : Char}
    (h : c ∈ collapseGo l b) : isSanChar c = true ∨ c = '-' := by
  induction l generalizing b with
  | nil => simp [collapseGo] at h
  | cons x xs ih =>
    unfold collapseGo at h
    by_cases hx : isSanChar x = true
    · rw [if_pos hx] at h
      rcases List.mem_cons.mp h with rfl | h
      · exact Or.inl hx
      · exact ih h
    · rw [if_neg hx] at h
      cases b with
      | true =>
        rw [if_pos rfl] at h
        exact ih h
      | false =>
        rw [if_neg (by decide)] at h
        rcases List.mem_cons.mp h with rfl | h
        · exact Or.inr rfl
        · exact ih h

theorem mem_stripEdges {l : List Char} {c : Char} (h : c ∈ stripEdges l) :
    c ∈ l := by
  unfold stripEdges at h
  rw [List.mem_reverse] at h
  have h2 := (List.dropWhile_sublist isDotDash).subset h
  rw [List.mem_reverse] at h2
  exact (List.dropWhile_sublist isDotDash).subset h2

/-- C8: `sanitizeName` is total by construction and implements exactly the
claimed pipeline: lowercase, collapse runs outside `[a-z0-9._]` to one
hyphen, strip leading/trailing dots and hyphens, truncate to 255
characters, and fall back to the fixed placeholder when empty; consequently
the result is never empty, never longer than 255 characters, and contains
only `[a-z0-9._-]` characters. -/
theorem sanitizeName_spec (name : String) :
    sanitizeName name ≠ "" ∧
    (sanitizeName name).data.length ≤ 255 ∧
    (∀ c ∈ (sanitizeName name).data, isSanChar c = true ∨ c = '-') ∧
    sanitizeName name =
      (if stripEdges (collapseRuns (jsToLower name).data) = [] then "unnamed-skill"
       else ⟨(stripEdges (collapseRuns (jsToLower name).data)).take 255⟩) := by
  unfold sanitizeName jsTake
  by_cases hE : stripEdges (collapseRuns (jsToLower name).data) = []
  · rw [hE]
    rw [if_pos (by apply String.ext; simp)]
    rw [if_pos rfl]
    refine ⟨by decide, by decide, ?_, rfl⟩
    intro c hc
    fin_cases hc <;> decide
  · have htake : (stripEdges (collapseRuns (jsToLower name).data)).take 255 ≠ [] := by
      intro h
      rw [List.take_eq_nil_iff] at h
      rcases h with h | h
      · exact absurd h (by decide)
      · exact hE h
    have hne : (⟨(stripEdges (collapseRuns (jsToLower name).data)).take 255⟩ : String) ≠ "" := by
      intro h
      rw [← string_data_eq_nil_iff] at h
      exact htake h
    rw [if_neg (by simpa using hne)]
    rw [if_neg hE]
    refine ⟨by simpa using hne, ?_, ?_, rfl⟩
    · exact List.length_take_le 255 _
    · intro c hc
      have hc2 : c ∈ stripEdges (collapseRuns (jsToLower name).data) :=
        (List.take_sublist 255 _).subset hc
      exact mem_collapseGo (mem_stripEdges hc2)

/-- C8 sanity: a traversal-shaped display name collapses to a safe token. -/
theorem sanitizeName_traversal_example :
    sanitizeName "../../../etc/passwd" = "etc-passwd" := by decide


theorem toNat_ofNat_valid (n : Nat) (h : n < 55296) : (Char.ofNat n).toNat = n := by
  simp only [Char.ofNat, Nat.isValidChar, Char.toNat]
  rw [dif_pos (Or.inl h)]
  simp [Char.ofNatAux, UInt32.toNat, UInt32.ofNatCore]

theorem noUpperChar_lowerChar (c : Char) : noUpperChar (lowerChar c) = true := by
  unfold noUpperChar lowerChar
  by_cases h : 65 ≤ c.toNat ∧ c.toNat ≤ 90
  · rw [if_pos h, toNat_ofNat_valid _ (by omega)]
    simp
    omega
  · rw [if_neg h]
    exact decide_eq_true h

theorem noUpperAscii_mem {s : String} (hs : noUpperAscii s = true) {c : Char}
    (hc : c ∈ s.data) : noUpperChar c = true := by
  unfold noUpperAscii at hs
  rw [List.all_eq_true] at hs
  exact hs c hc

theorem noUpperAscii_of_subset {s t : String} (hs : noUpperAscii s = true)
    (hsub : ∀ c ∈ t.data, c ∈ s.data) : noUpperAscii t = true := by
  unfold noUpperAscii
  rw [List.all_eq_true]
  exact fun c hc => noUpperAscii_mem hs (hsub c hc)

theorem noUpperAscii_jsToLower (s : String) : noUpperAscii (jsToLower s) = true := by
  unfold noUpperAscii jsToLower
  rw [List.all_eq_true]
  intro c hc
  rcases List.mem_map.mp hc with ⟨d, _, hd⟩
  exact hd ▸ noUpperChar_lowerChar d

theorem noUpperAscii_append {a b : String} (ha : noUpperAscii a = true)
    (hb : noUpperAscii b = true) : noUpperAscii (a ++ b) = true := by
  unfold noUpperAscii at *
  rw [String.data_append, List.all_append, ha, hb]
  rfl

theorem noUpperAscii_joinSep {sep : String} (hsep : noUpperAscii sep = true)
    {l : List String} (h : ∀ x ∈ l, noUpperAscii x = true) :
    noUpperAscii (joinSep sep l) = true := by
  induction l with
  | nil => rfl
  | cons x xs ih =>
    cases xs with
    | nil => exact h x (List.mem_cons_self _ _)
    | cons y ys =>
      show noUpperAscii (x ++ sep ++ joinSep sep (y :: ys)) = true
      exact noUpperAscii_append
        (noUpperAscii_append (h x (List.mem_cons_self _ _)) hsep)
        (ih (fun z hz => h z (List.mem_cons_of_mem _ hz)))

theorem noUpperAscii_dropRight {s : String} (n : Nat)
    (hs : noUpperAscii s = true) : noUpperAscii (dropRight n s) = true := by
  apply noUpperAscii_of_subset hs
  intro c hc
  exact (List.take_sublist _ _).subset hc

theorem noUpperAscii_stripMd {s : String} (hs : noUpperAscii s = true) :
    noUpperAscii (stripMd s) = true := by
  unfold stripMd
  split
  · exact noUpperAscii_dropRight 3 hs
  · exact hs

theorem noUpperAscii_stripGitSuffix {s : String} (hs : noUpperAscii s = true) :
    noUpperAscii (stripGitSuffix s) = true := by
  unfold stripGitSuffix
  split
  · exact noUpperAscii_dropRight 4 hs
  · exact hs

theorem mem_splitChar {c : Char} {l x : List Char} (hx : x ∈ splitChar c l) :
    ∀ ch ∈ x, ch ∈ l := by
  induction l generalizing x with
  | nil =>
    simp only [splitChar, List.mem_singleton] at hx
    subst hx
    simp
  | cons a t ih =>
    simp only [splitChar] at hx
    by_cases hac : a = c
    · rw [if_pos hac] at hx
      rcases List.mem_cons.mp hx with rfl | hx
      · simp
      · exact fun ch hch => List.mem_cons_of_mem _ (ih hx ch hch)
    · rw [if_neg hac] at hx
      cases hsp : splitChar c t with
      | nil =>
        rw [hsp] at hx
        rcases List.mem_cons.mp hx with rfl | hx
        · intro ch hch
          rcases List.mem_cons.mp hch with rfl | hch
          · exact List.mem_cons_self _ _
          · simp at hch
        · simp at hx
      | cons hchunk t2 =>
        rw [hsp] at hx
        rcases List.mem_cons.mp hx with rfl | hx
        · intro ch hch
          rcases List.mem_cons.mp hch with rfl | hch
          · exact List.mem_cons_self _ _
          · exact List.mem_cons_of_mem _
              (ih (hsp ▸ List.mem_cons_self hchunk t2) ch hch)
        · exact fun ch hch => List.mem_cons_of_mem _
            (ih (hsp ▸ List.mem_cons_of_mem _ hx) ch hch)

theorem noUpperAscii_mem_jsSplit {c : Char} {s x : String}
    (hs : noUpperAscii s = true) (hx : x ∈ jsSplit c s) :
    noUpperAscii x = true := by
  unfold jsSplit at hx
  rcases List.mem_map.mp hx with ⟨chunk, hchunk, rfl⟩
  exact noUpperAscii_of_subset hs (fun ch hch => mem_splitChar hchunk ch hch)

theorem noUpperAscii_normalizeHost (host : String) :
    noUpperAscii (normalizeHost host) = true := by
  simp only [normalizeHost]
  split
  · exact noUpperAscii_of_subset (noUpperAscii_jsToLower host)
      (fun ch hch => (List.drop_subset _ _) hch)
  · exact noUpperAscii_jsToLower host

theorem noUpperAscii_getRegistrableDomain {host : String}
    (hs : noUpperAscii host = true) :
    noUpperAscii (getRegistrableDomain host) = true := by
  simp only [getRegistrableDomain]
  split
  · apply noUpperAscii_joinSep (by decide)
    intro x hx
    have hx2 : x ∈ jsSplit '.' host := (List.drop_subset _ _) hx
    exact noUpperAscii_mem_jsSplit hs hx2
  · exact hs

theorem mem_mapLastStripMd {l : List String} {x : String}
    (h : x ∈ mapLastStripMd l) : x ∈ l ∨ ∃ y ∈ l, x = stripMd y := by
  induction l with
  | nil => simp [mapLastStripMd] at h
  | cons a t ih =>
    cases t with
    | nil =>
      simp only [mapLastStripMd, List.mem_singleton] at h
      exact Or.inr ⟨a, List.mem_cons_self _ _, h⟩
    | cons b t2 =>
      simp only [mapLastStripMd] at h
      rcases List.mem_cons.mp h with rfl | h
      · exact Or.inl (List.mem_cons_self _ _)
      · rcases ih h with h2 | ⟨y, hy, hxy⟩
        · exact Or.inl (List.mem_cons_of_mem _ h2)
        · exact Or.inr ⟨y, List.mem_cons_of_mem _ hy, hxy⟩

theorem noUpperAscii_mem_normalizedParts {parts : List String} {x : String}
    (hx : x ∈ mapLastStripMd (parts.map jsToLower)) :
    noUpperAscii x = true := by
  rcases mem_mapLastStripMd hx with h | ⟨y, hy, rfl⟩
  · rcases List.mem_map.mp h with ⟨z, _, rfl⟩
    exact noUpperAscii_jsToLower z
  · rcases List.mem_map.mp hy with ⟨z, _, rfl⟩
    exact noUpperAscii_stripMd (noUpperAscii_jsToLower z)

theorem noUpperAscii_normalizeSkillPath (parts : List String) :
    noUpperAscii (normalizeSkillPath parts) = true := by
  simp only [normalizeSkillPath]
  split
  · rfl
  · rename_i p ps
    have hall : ∀ x ∈ mapLastStripMd ((p :: ps).map jsToLower),
        noUpperAscii x = true := fun x hx => noUpperAscii_mem_normalizedParts hx
    split
    · rename_i r rest heq
      apply noUpperAscii_joinSep (by decide)
      intro x hx
      exact hall x (heq ▸ List.mem_cons_of_mem _ hx)
    · apply noUpperAscii_joinSep (by decide) hall

theorem splitLast_mem {l : List String} {init : List String} {lst : String}
    (h : splitLast l = some (init, lst)) :
    (∀ x ∈ init, x ∈ l) ∧ lst ∈ l := by
  induction l generalizing init with
  | nil => simp [splitLast] at h
  | cons a t ih =>
    cases t with
    | nil =>
      simp only [splitLast, Option.some.injEq, Prod.mk.injEq] at h
      rcases h with ⟨h1, h2⟩
      subst h1; subst h2
      exact ⟨by simp, List.mem_cons_self _ _⟩
    | cons b t2 =>
      simp only [splitLast] at h
      cases hsl : splitLast (b :: t2) with
      | none => rw [hsl] at h; exact Option.noConfusion h
      | some p =>
        rw [hsl] at h
        rcases p with ⟨init2, lst2⟩
        simp only [Option.some.injEq, Prod.mk.injEq] at h
        rcases h with ⟨h1, h2⟩
        subst h2
        rcases ih hsl with ⟨hi, hl⟩
        constructor
        · intro x hx
          rw [← h1] at hx
          rcases List.mem_cons.mp hx with rfl | hx
          · exact List.mem_cons_self _ _
          · exact List.mem_cons_of_mem _ (hi x hx)
        · exact List.mem_cons_of_mem _ hl


theorem noUpper_ite_skill {s : String} (hs : noUpperAscii s = true) {x : String}
    (h : (if s ≠ "" then some s else none) = some x) : noUpperAscii x = true := by
  by_cases hne : s ≠ ""
  · rw [if_pos hne, Option.some.injEq] at h
    exact h ▸ hs
  · rw [if_neg hne] at h
    exact Option.noConfusion h

theorem parseGitHostUrl_noUpper {host : String} {pathParts : List String}
    {sourceUrl : String} {r : ParsedSkillUrl}
    (h : parseGitHostUrl host pathParts sourceUrl = .ok r) :
    noUpperAscii r.owner = true ∧
    (∀ x, r.repo = some x → noUpperAscii x = true) ∧
    (∀ x, r.skill = some x → noUpperAscii x = true) := by
  unfold parseGitHostUrl at h
  cases pathParts with
  | nil => exact Except.noConfusion h
  | cons p0 t =>
    cases t with
    | nil => exact Except.noConfusion h
    | cons p1 rest =>
      rw [Except.ok.injEq] at h
      subst h
      refine ⟨noUpperAscii_jsToLower p0, ?_, ?_⟩
      · intro x hx
        rw [Option.some.injEq] at hx
        exact hx ▸ noUpperAscii_jsToLower (stripGitSuffix p1)
      · intro x hx
        exact noUpper_ite_skill (noUpperAscii_normalizeSkillPath _) hx

theorem parseClawHubDownload_noUpper {parsed : JsURL} {sourceUrl : String}
    {r : ParsedSkillUrl} (h : parseClawHubDownload parsed sourceUrl = .ok r) :
    noUpperAscii r.owner = true ∧
    (∀ x, r.repo = some x → noUpperAscii x = true) ∧
    (∀ x, r.skill = some x → noUpperAscii x = true) := by
  unfold parseClawHubDownload at h
  cases hm : (searchParamGet "slug" parsed.search).map jsToLower with
  | none => rw [hm] at h; exact Except.noConfusion h
  | some slug =>
    rw [hm] at h
    dsimp only at h
    rcases Option.map_eq_some'.mp hm with ⟨s0, _, hs0⟩
    by_cases hz : slug = ""
    · rw [if_pos hz] at h; exact Except.noConfusion h
    · rw [if_neg hz, Except.ok.injEq] at h
      subst h
      refine ⟨(by decide : noUpperAscii "clawhub.ai" = true), ?_, ?_⟩
      · intro x hx
        rw [Option.some.injEq] at hx
        subst hx
        decide
      · intro x hx
        rw [Option.some.injEq] at hx
        subst hx
        exact hs0 ▸ noUpperAscii_jsToLower s0

theorem parseClawHubUrl_noUpper {parsed : JsURL} {sourceUrl : String}
    {r : ParsedSkillUrl} (h : parseClawHubUrl parsed sourceUrl = .ok r) :
    noUpperAscii r.owner = true ∧
    (∀ x, r.repo = some x → noUpperAscii x = true) ∧
    (∀ x, r.skill = some x → noUpperAscii x = true) := by
  unfold parseClawHubUrl at h
  split at h
  · rename_i pub sl heq
    by_cases hp : pub ≠ "api"
    · rw [if_pos hp, Except.ok.injEq] at h
      subst h
      refine ⟨(by decide : noUpperAscii "clawhub.ai" = true), ?_, ?_⟩
      · intro x hx
        rw [Option.some.injEq] at hx
        exact hx ▸ noUpperAscii_jsToLower pub
      · intro x hx
        rw [Option.some.injEq] at hx
        exact hx ▸ noUpperAscii_jsToLower sl
    · rw [if_neg hp] at h
      exact parseClawHubDownload_noUpper h
  · exact parseClawHubDownload_noUpper h

theorem noUpperAscii_hostBaseOf {owner : String} (howner : noUpperAscii owner = true) :
    noUpperAscii (hostBaseOf owner) = true := by
  unfold hostBaseOf
  split
  · rfl
  · rename_i b bs heq
    exact noUpperAscii_mem_jsSplit howner (by rw [heq]; exact List.mem_cons_self _ _)

theorem parseHttpRepoSkill_noUpper {hostBase : String} {normalized : List String}
    (hbase : noUpperAscii hostBase = true)
    (hnorm : ∀ x ∈ normalized, noUpperAscii x = true) :
    (∀ x, (parseHttpRepoSkill hostBase normalized).1 = some x →
      noUpperAscii x = true) ∧
    noUpperAscii (parseHttpRepoSkill hostBase normalized).2 = true := by
  rcases normalized with _ | ⟨a, _ | ⟨b, t⟩⟩
  · exact ⟨fun x hx => Option.noConfusion hx, hbase⟩
  · refine ⟨fun x hx => Option.noConfusion hx, ?_⟩
    show noUpperAscii (if a = "skill" then hostBase else a) = true
    split
    · exact hbase
    · exact hnorm a (List.mem_cons_self _ _)
  · dsimp only [parseHttpRepoSkill]
    cases hsl : splitLast (a :: b :: t) with
    | none => exact ⟨fun x hx => Option.noConfusion hx, hbase⟩
    | some pf =>
      rcases pf with ⟨parentPath, filename⟩
      dsimp only
      have hmem := splitLast_mem hsl
      by_cases hf : filename = "skill"
      · rw [if_pos hf]
        rcases parentPath with _ | ⟨p, _ | ⟨q, t2⟩⟩
        · exact ⟨fun x hx => Option.noConfusion hx, hbase⟩
        · refine ⟨?_, hnorm p (hmem.1 p (List.mem_cons_self _ _))⟩
          intro x hx
          rw [Option.some.injEq] at hx
          exact hx ▸ hnorm p (hmem.1 p (List.mem_cons_self _ _))
        · cases hsl2 : splitLast (p :: q :: t2) with
          | none => exact ⟨fun x hx => Option.noConfusion hx, hbase⟩
          | some pf2 =>
            rcases pf2 with ⟨pinit, plast⟩
            dsimp only
            have hmem2 := splitLast_mem hsl2
            constructor
            · intro x hx
              rw [Option.some.injEq] at hx
              subst hx
              apply noUpperAscii_joinSep (by decide)
              intro y hy
              exact hnorm y (hmem.1 y (hmem2.1 y hy))
            · exact hnorm plast (hmem.1 plast hmem2.2)
      · rw [if_neg hf]
        constructor
        · intro x hx
          rw [Option.some.injEq] at hx
          subst hx
          apply noUpperAscii_joinSep (by decide)
          intro y hy
          exact hnorm y (hmem.1 y hy)
        · exact hnorm filename hmem.2

theorem parseHttpPath_noUpper {owner host : String} {normalized : List String}
    {sourceUrl : String} (howner : noUpperAscii owner = true)
    (hnorm : ∀ x ∈ normalized, noUpperAscii x = true) :
    noUpperAscii (parseHttpPath owner host normalized sourceUrl).owner = true ∧
    (∀ x, (parseHttpPath owner host normalized sourceUrl).repo = some x →
      noUpperAscii x = true) ∧
    (∀ x, (parseHttpPath owner host normalized sourceUrl).skill = some x →
      noUpperAscii x = true) := by
  obtain ⟨hrepo, hskill⟩ :=
    parseHttpRepoSkill_noUpper (noUpperAscii_hostBaseOf howner) hnorm
  refine ⟨howner, ?_, ?_⟩
  · intro x hx
    exact hrepo x hx
  · intro x hx
    dsimp only [parseHttpPath] at hx
    rw [Option.some.injEq] at hx
    exact hx ▸ hskill

theorem parseHttpUrl_noUpper {host : String} {pathParts : List String}
    {sourceUrl : String} (hhost : noUpperAscii host = true) :
    noUpperAscii (parseHttpUrl host pathParts sourceUrl).owner = true ∧
    (∀ x, (parseHttpUrl host pathParts sourceUrl).repo = some x →
      noUpperAscii x = true) ∧
    (∀ x, (parseHttpUrl host pathParts sourceUrl).skill = some x →
      noUpperAscii x = true) := by
  have howner := noUpperAscii_getRegistrableDomain hhost
  have hnorm : ∀ x ∈ mapLastStripMd (pathParts.map jsToLower),
      noUpperAscii x = true := fun x hx => noUpperAscii_mem_normalizedParts hx
  dsimp only [parseHttpUrl]
  split
  · split
    · exact parseHttpPath_noUpper howner
        (fun x hx => hnorm x ((List.drop_subset _ _) hx))
    · exact parseHttpPath_noUpper howner hnorm
  · exact parseHttpPath_noUpper howner hnorm

/-- C1 counterexample: the Identity Resolver performs no safe-segment
validation of its produced fields.  An owner containing a traversal
sequence fails `isSafePathSegment` (and the manifest-path guard), yet
`parseSkillUrl` returns a successful identity instead of an invalid-source
error. -/
theorem parseSkillUrl_no_segment_validation :
    (parseSkillUrl "https://github.com/a..b/x").map (fun r => r.owner) =
      Except.ok "a..b" ∧
    isSafePathSegment "a..b" = false ∧
    isPathSafe "a..b" = false := by decide

/-- C1 (amended): every identity field produced by a successful parse
(owner, repo, skill) is lowercased — it contains no uppercase ASCII
letter — but no safe-segment validation is applied to these fields. -/
theorem parseSkillUrl_fields_lowercase (url : String) (r : ParsedSkillUrl)
    (h : parseSkillUrl url = .ok r) :
    noUpperAscii r.owner = true ∧
    (∀ x, r.repo = some x → noUpperAscii x = true) ∧
    (∀ x, r.skill = some x → noUpperAscii x = true) := by
  dsimp only [parseSkillUrl] at h
  split at h
  · exact Except.noConfusion h
  · split at h
    · exact Except.noConfusion h
    · rename_i parsed heq
      split at h
      · exact parseGitHostUrl_noUpper h
      · split at h
        · exact parseClawHubUrl_noUpper h
        · rw [Except.ok.injEq] at h
          subst h
          exact parseHttpUrl_noUpper (noUpperAscii_normalizeHost parsed.host)

/-- C1 witness: the lowercase guarantee evaluated at a concrete mixed-case
source URL. -/
theorem parseSkillUrl_fields_lowercase_witness :
    noUpperAscii "acme" = true ∧
    (∀ x, (some "tools" : Option String) = some x → noUpperAscii x = true) ∧
    (∀ x, (some "hello" : Option String) = some x → noUpperAscii x = true) := by
  have h := parseSkillUrl_fields_lowercase "https://github.com/ACME/Tools/tree/main/skills/Hello"
    ⟨"github.com", "github.com/acme/tools/hello", "acme", some "tools", some "hello",
      some "skills/Hello", some "main",
      "https://github.com/ACME/Tools/tree/main/skills/Hello"⟩ (by decide)
  exact h

theorem isWordDashChar_facts {c : Char} (h : isWordDashChar c = true) :
    isJsSpace c = false ∧ c ≠ '/' ∧ c ≠ ':' ∧ c ≠ '@' ∧ c ≠ '.' ∧
      c ≠ '?' ∧ c ≠ '#' ∧ c ≠ '\n' := by
  refine ⟨?_, ?_, ?_, ?_, ?_, ?_, ?_, ?_⟩
  · cases hsp : isJsSpace c
    · rfl
    · exfalso
      have hd : c = ' ' ∨ c = '\t' ∨ c = '\n' ∨ c = '\r' ∨ c = '\x0b' ∨ c = '\x0c' := by
        simpa [isJsSpace] using hsp
      rcases hd with rfl | rfl | rfl | rfl | rfl | rfl <;> exact absurd h (by decide)
  all_goals intro hc
  all_goals subst hc
  all_goals exact absurd h (by decide)

theorem takeWhile_all {p : Char → Bool} {l : List Char}
    (h : ∀ c ∈ l, p c = true) : l.takeWhile p = l := by
  induction l with
  | nil => rfl
  | cons x xs ih =>
    rw [List.takeWhile_cons, if_pos (h x (List.mem_cons_self _ _)),
      ih (fun c hc => h c (List.mem_cons_of_mem _ hc))]

theorem takeWhile_append_all {p : Char → Bool} {a : List Char} (b : List Char)
    (h : ∀ c ∈ a, p c = true) :
    (a ++ b).takeWhile p = a ++ b.takeWhile p := by
  induction a with
  | nil => rfl
  | cons x xs ih =>
    rw [List.cons_append, List.takeWhile_cons, if_pos (h x (List.mem_cons_self _ _)),
      ih (fun c hc => h c (List.mem_cons_of_mem _ hc)), List.cons_append]

theorem dropWhile_append_all {p : Char → Bool} {a : List Char} (b : List Char)
    (h : ∀ c ∈ a, p c = true) :
    (a ++ b).dropWhile p = b.dropWhile p := by
  induction a with
  | nil => rfl
  | cons x xs ih =>
    rw [List.cons_append, List.dropWhile_cons, if_pos (h x (List.mem_cons_self _ _)),
      ih (fun c hc => h c (List.mem_cons_of_mem _ hc))]

theorem dropWhile_all_false {p : Char → Bool} {l : List Char}
    (h : ∀ c ∈ l, p c = false) : l.dropWhile p = l := by
  cases l with
  | nil => rfl
  | cons x xs =>
    rw [List.dropWhile_cons, if_neg (by simp [h x (List.mem_cons_self _ _)])]

theorem jsTrim_eq_self {s : String} (h : ∀ c ∈ s.data, isJsSpace c = false) :
    jsTrim s = s := by
  unfold jsTrim
  apply String.ext
  show ((s.data.dropWhile isJsSpace).reverse.dropWhile isJsSpace).reverse = s.data
  rw [dropWhile_all_false h]
  rw [dropWhile_all_false (fun c hc => h c (List.mem_reverse.mp hc))]
  exact List.reverse_reverse _

theorem isPrefixOf_append_left {p a : List Char} (b : List Char)
    (h : p.length ≤ a.length) : p.isPrefixOf (a ++ b) = p.isPrefixOf a := by
  induction p generalizing a with
  | nil => simp [List.isPrefixOf]
  | cons x xs ih =>
    cases a with
    | nil => simp at h
    | cons y ys =>
      simp only [List.cons_append, List.isPrefixOf, List.append_eq]
      rw [ih (a := ys) (by simpa using h)]

theorem jsStartsWith_append_left {pre a : String} (b : String)
    (h : pre.data.length ≤ a.data.length) :
    jsStartsWith pre (a ++ b) = jsStartsWith pre a := by
  unfold jsStartsWith
  rw [String.data_append]
  exact isPrefixOf_append_left _ h

theorem jsStartsWith_false_of_mem {pre s : String} {c : Char}
    (hc : c ∈ pre.data) (hs : c ∉ s.data) : jsStartsWith pre s = false := by
  unfold jsStartsWith
  cases hps : pre.data.isPrefixOf s.data
  · rfl
  · exact absurd ((List.isPrefixOf_iff_prefix.mp hps).subset hc) hs

theorem splitChar_cons (c x : Char) (xs : List Char) :
    splitChar c (x :: xs) =
      if x = c then [] :: splitChar c xs
      else
        match splitChar c xs with
        | [] => [[x]]
        | h :: t => (x :: h) :: t := rfl

theorem splitChar_no_sep {c : Char} {a : List Char} (h : ∀ x ∈ a, x ≠ c) :
    splitChar c a = [a] := by
  induction a with
  | nil => rfl
  | cons x xs ih =>
    rw [splitChar_cons, if_neg (h x (List.mem_cons_self _ _)),
      ih (fun y hy => h y (List.mem_cons_of_mem _ hy))]

theorem splitChar_append_sep {c : Char} {a : List Char} (b : List Char)
    (h : ∀ x ∈ a, x ≠ c) :
    splitChar c (a ++ c :: b) = a :: splitChar c b := by
  induction a with
  | nil =>
    rw [List.nil_append, splitChar_cons, if_pos rfl]
  | cons x xs ih =>
    rw [List.cons_append, splitChar_cons, if_neg (h x (List.mem_cons_self _ _)),
      ih (fun y hy => h y (List.mem_cons_of_mem _ hy))]

theorem jsEndsWith_false_of_mem {suf s : String} {c : Char}
    (hc : c ∈ suf.data) (hs : c ∉ s.data) : jsEndsWith suf s = false := by
  unfold jsEndsWith
  cases hps : suf.data.isSuffixOf s.data
  · rfl
  · exact absurd ((List.isSuffixOf_iff_suffix.mp hps).sublist.subset hc) hs

theorem stripGitSuffix_of_no_dot {s : String} (h : '.' ∉ s.data) :
    stripGitSuffix s = s := by
  unfold stripGitSuffix
  rw [jsEndsWith_false_of_mem (show ('.' ∈ (".git" : String).data) by decide) h]
  rfl

theorem stripGitSuffix_append_git (s : String) :
    stripGitSuffix (s ++ ".git") = s := by
  unfold stripGitSuffix
  have hsuf : jsEndsWith ".git" (s ++ ".git") = true := by
    unfold jsEndsWith
    rw [String.data_append]
    exact List.isSuffixOf_iff_suffix.mpr (List.suffix_append _ _)
  rw [if_pos hsuf]
  unfold dropRight
  apply String.ext
  show ((s ++ ".git").data).take ((s ++ ".git").data.length - 4) = s.data
  rw [String.data_append]
  rw [List.length_append]
  have h4 : (".git").data.length = 4 := by decide
  rw [h4]
  rw [Nat.add_sub_cancel]
  exact List.take_left' rfl

theorem stripMd_of_no_dot {s : String} (h : '.' ∉ s.data) : stripMd s = s := by
  unfold stripMd
  rw [jsEndsWith_false_of_mem (show ('.' ∈ (".md" : String).data) by decide) h]
  rfl

theorem lowerChar_no_dot {c : Char} (h : c ≠ '.') : lowerChar c ≠ '.' := by
  unfold lowerChar
  by_cases hc : 65 ≤ c.toNat ∧ c.toNat ≤ 90
  · rw [if_pos hc]
    intro heq
    have := congrArg Char.toNat heq
    rw [toNat_ofNat_valid _ (by omega)] at this
    have h46 : ('.').toNat = 46 := by decide
    rw [h46] at this
    omega
  · rw [if_neg hc]
    exact h

theorem jsToLower_no_dot {s : String} (h : '.' ∉ s.data) :
    '.' ∉ (jsToLower s).data := by
  intro hmem
  unfold jsToLower at hmem
  rcases List.mem_map.mp hmem with ⟨d, hd, hld⟩
  exact lowerChar_no_dot (fun hdd => h (hdd ▸ hd)) hld

theorem jsToLower_ne_empty {s : String} (h : s.data ≠ []) : jsToLower s ≠ "" := by
  intro heq
  rw [← string_data_eq_nil_iff] at heq
  unfold jsToLower at heq
  simp only [List.map_eq_nil_iff] at heq
  exact h heq


theorem parseURL_github (path : List Char)
    (hp : ∀ c ∈ path, c ≠ '?' ∧ c ≠ '#') :
    parseURL ("https://github.com/" ++ (⟨path⟩ : String)) =
      .ok { host := "github.com", pathname := ⟨'/' :: path⟩, search := [] } := by
  have hdata : ("https://github.com/" ++ (⟨path⟩ : String)).data =
      "https://".data ++ ("github.com".data ++ '/' :: path) := by
    rw [String.data_append]
    have hlit : "https://github.com/".data =
        "https://".data ++ ("github.com".data ++ ['/']) := by decide
    rw [hlit]
    simp [List.append_assoc]
  have h1 : jsStartsWith "https://" ("https://github.com/" ++ (⟨path⟩ : String)) = true := by
    unfold jsStartsWith
    rw [hdata]
    exact List.isPrefixOf_iff_prefix.mpr ⟨_, rfl⟩
  have hdrop : ("https://github.com/" ++ (⟨path⟩ : String)).data.drop 8 =
      "github.com".data ++ '/' :: path := by
    rw [hdata]
    exact List.drop_left' (by decide)
  have hauth : ("github.com".data ++ '/' :: path).takeWhile
      (fun c => c ≠ '/' ∧ c ≠ '?' ∧ c ≠ '#') = "github.com".data := by
    rw [takeWhile_append_all _ (by decide)]
    rw [List.takeWhile_cons]
    rw [if_neg (by decide)]
    simp
  unfold parseURL stripScheme
  rw [if_pos h1]
  dsimp only
  rw [hdrop, hauth]
  rw [if_neg (by decide : ¬ ("github.com".data = []))]
  rw [List.drop_left]
  rw [takeWhile_all (p := fun c => c ≠ '#')
    (by intro c hc
        rcases List.mem_cons.mp hc with rfl | hc
        · decide
        · exact decide_eq_true (hp c hc).2)]
  rw [takeWhile_all (p := fun c => c ≠ '?')
    (by intro c hc
        rcases List.mem_cons.mp hc with rfl | hc
        · decide
        · exact decide_eq_true (hp c hc).1)]
  rw [List.drop_length]
  rw [if_neg (by simp : ¬ (('/' :: path) = []))]
  have hlow : jsToLower ⟨"github.com".data⟩ = "github.com" := by decide
  rw [hlow]
  rfl

theorem parseSkillUrl_to_github {url w normalized : String} {upar : JsURL}
    (hstep : (if jsStartsWith "git@" (jsTrim url) then convertSshToHttps (jsTrim url)
              else .ok (jsTrim url) : Except String String) = .ok w)
    (hnorm : (if ¬ (jsStartsWith "http://" w ∨ jsStartsWith "https://" w)
              then inferProtocol w else w) = normalized)
    (hparse : parseURL normalized = .ok upar)
    (hhost : normalizeHost upar.host = "github.com") :
    parseSkillUrl url =
      parseGitHostUrl "github.com" (filterTruthy (jsSplit '/' upar.pathname)) url := by
  dsimp only [parseSkillUrl]
  rw [hstep]
  dsimp only
  rw [hnorm, hparse]
  dsimp only
  rw [if_pos hhost]

theorem all_data_append {P : Char → Prop} {a b : String}
    (ha : ∀ c ∈ a.data, P c) (hb : ∀ c ∈ b.data, P c) :
    ∀ c ∈ (a ++ b).data, P c := by
  intro c hc
  rw [String.data_append] at hc
  rcases List.mem_append.mp hc with h | h
  · exact ha c h
  · exact hb c h

theorem not_mem_of_all_ne {s : String} {x : Char}
    (h : ∀ c ∈ s.data, c ≠ x) : x ∉ s.data :=
  fun hmem => (h x hmem) rfl

theorem splitChar_joinSlash {chunks : List String} (hne : chunks ≠ [])
    (h : ∀ s ∈ chunks, ∀ x ∈ s.data, x ≠ '/') :
    splitChar '/' (joinSlashData chunks) = chunks.map String.data := by
  induction chunks with
  | nil => exact absurd rfl hne
  | cons a t ih =>
    cases t with
    | nil =>
      show splitChar '/' a.data = [a.data]
      exact splitChar_no_sep (h a (List.mem_cons_self _ _))
    | cons b t2 =>
      show splitChar '/' (a.data ++ '/' :: joinSlashData (b :: t2)) = _
      rw [splitChar_append_sep _ (h a (List.mem_cons_self _ _))]
      rw [ih (by simp) (fun s hs => h s (List.mem_cons_of_mem _ hs))]
      rfl

theorem map_mk_of_map_data (l : List String) :
    (l.map String.data).map (fun d => (⟨d⟩ : String)) = l := by
  induction l with
  | nil => rfl
  | cons a t ih => simp only [List.map_cons, ih]

theorem filterTruthy_all_ne {l : List String} (h : ∀ s ∈ l, s ≠ "") :
    filterTruthy l = l := by
  unfold filterTruthy
  rw [List.filter_eq_self]
  intro a ha
  exact decide_eq_true (h a ha)

theorem pathParts_slash {chunks : List String} (hne : chunks ≠ [])
    (h : ∀ s ∈ chunks, s ≠ "" ∧ ∀ x ∈ s.data, x ≠ '/') :
    filterTruthy (jsSplit '/' ⟨'/' :: joinSlashData chunks⟩) = chunks := by
  unfold jsSplit
  show filterTruthy ((splitChar '/' ('/' :: joinSlashData chunks)).map _) = _
  rw [splitChar_cons, if_pos rfl]
  rw [splitChar_joinSlash hne (fun s hs => (h s hs).2)]
  rw [List.map_cons, map_mk_of_map_data]
  show filterTruthy ("" :: chunks) = chunks
  have hstep : filterTruthy ("" :: chunks) = filterTruthy chunks := by
    unfold filterTruthy
    rw [List.filter_cons_of_neg (by decide)]
  rw [hstep, filterTruthy_all_ne (fun s hs => (h s hs).1)]

theorem normalizeSkillPath_single {sk : String} (h : '.' ∉ (jsToLower sk).data) :
    normalizeSkillPath [sk] = jsToLower sk := by
  simp only [normalizeSkillPath, List.map_cons, List.map_nil, mapLastStripMd,
    stripMd_of_no_dot h]
  split
  · rename_i r rest heq
    exact absurd heq (by simp)
  · rfl

theorem normalizeSkillPath_skills_pair {sk : String} (h : '.' ∉ (jsToLower sk).data) :
    normalizeSkillPath ["skills", sk] = jsToLower sk := by
  have hsl : jsToLower "skills" = "skills" := by decide
  simp only [normalizeSkillPath, List.map_cons, List.map_nil, mapLastStripMd,
    stripMd_of_no_dot h, hsl]
  rfl

theorem parseGitHostUrl_id_two (o r src : String) :
    (parseGitHostUrl "github.com" [o, r] src).map (fun pr => pr.id) =
      .ok (joinSep "/" ["github.com", jsToLower o, jsToLower (stripGitSuffix r)]) := by
  rfl

theorem parseGitHostUrl_id_three (o r sk src : String)
    (h1 : sk ≠ "tree") (h2 : sk ≠ "blob")
    (hsp : normalizeSkillPath [sk] = jsToLower sk) (hne : jsToLower sk ≠ "") :
    (parseGitHostUrl "github.com" [o, r, sk] src).map (fun pr => pr.id) =
      .ok (joinSep "/"
        ["github.com", jsToLower o, jsToLower (stripGitSuffix r), jsToLower sk]) := by
  simp only [parseGitHostUrl]
  rw [if_neg (show ¬ (sk = "tree" ∨ sk = "blob") from by simp [h1, h2])]
  simp only [hsp, if_pos hne, Except.map]
  rfl

theorem parseGitHostUrl_id_tree (o r sk src : String)
    (hsp : normalizeSkillPath ["skills", sk] = jsToLower sk) (hne : jsToLower sk ≠ "") :
    (parseGitHostUrl "github.com" [o, r, "tree", "main", "skills", sk] src).map
        (fun pr => pr.id) =
      .ok (joinSep "/"
        ["github.com", jsToLower o, jsToLower (stripGitSuffix r), jsToLower sk]) := by
  simp only [parseGitHostUrl, true_or, ite_true, List.head?,
    List.drop_succ_cons, List.drop_zero]
  simp only [hsp, if_pos hne, Except.map]
  rfl

theorem urlSegChar_facts {c : Char} (h : urlSegChar c = true) :
    isJsSpace c = false ∧ c ≠ '/' ∧ c ≠ ':' ∧ c ≠ '@' ∧ c ≠ '?' ∧ c ≠ '#' ∧
      c ≠ '\n' := by
  have hd : isWordDashChar c = true ∨ c = '.' := by simpa [urlSegChar] using h
  rcases hd with hw | rfl
  · have := isWordDashChar_facts hw
    exact ⟨this.1, this.2.1, this.2.2.1, this.2.2.2.1, this.2.2.2.2.2.1,
      this.2.2.2.2.2.2.1, this.2.2.2.2.2.2.2⟩
  · exact ⟨by decide, by decide, by decide, by decide, by decide, by decide, by decide⟩

theorem mem_joinSlashData {chunks : List String} {c : Char}
    (hc : c ∈ joinSlashData chunks) : c = '/' ∨ ∃ s ∈ chunks, c ∈ s.data := by
  induction chunks with
  | nil => simp [joinSlashData] at hc
  | cons a t ih =>
    cases t with
    | nil =>
      exact Or.inr ⟨a, List.mem_cons_self _ _, hc⟩
    | cons b t2 =>
      rcases List.mem_append.mp hc with h | h
      · exact Or.inr ⟨a, List.mem_cons_self _ _, h⟩
      · rcases List.mem_cons.mp h with rfl | h
        · exact Or.inl rfl
        · rcases ih h with h2 | ⟨s, hs, hcs⟩
          · exact Or.inl h2
          · exact Or.inr ⟨s, List.mem_cons_of_mem _ hs, hcs⟩

theorem parseSkillUrl_via_github {u w : String} {chunks : List String}
    (hstep : (if jsStartsWith "git@" (jsTrim u) then convertSshToHttps (jsTrim u)
              else .ok (jsTrim u) : Except String String) = .ok w)
    (hw : (if ¬ (jsStartsWith "http://" w ∨ jsStartsWith "https://" w)
           then inferProtocol w else w) =
      "https://github.com/" ++ (⟨joinSlashData chunks⟩ : String))
    (hchunks : chunks ≠ [])
    (hch : ∀ s ∈ chunks, s ≠ "" ∧ ∀ x ∈ s.data, x ≠ '/' ∧ x ≠ '?' ∧ x ≠ '#') :
    parseSkillUrl u = parseGitHostUrl "github.com" chunks u := by
  have hpath : ∀ c ∈ joinSlashData chunks, c ≠ '?' ∧ c ≠ '#' := by
    intro c hc
    rcases mem_joinSlashData hc with rfl | ⟨s, hs, hcs⟩
    · exact ⟨by decide, by decide⟩
    · exact ⟨((hch s hs).2 c hcs).2.1, ((hch s hs).2 c hcs).2.2⟩
  have h2 := parseSkillUrl_to_github hstep hw (parseURL_github _ hpath)
      (show normalizeHost "github.com" = "github.com" by decide)
  rw [h2]
  show parseGitHostUrl "github.com"
    (filterTruthy (jsSplit '/' ⟨'/' :: joinSlashData chunks⟩)) u = _
  rw [pathParts_slash hchunks
    (fun s hs => ⟨(hch s hs).1, fun x hx => ((hch s hs).2 x hx).1⟩)]

theorem convertSsh_github {X : List Char} (hne : X ≠ []) (hnl : '\n' ∉ X) :
    convertSshToHttps ("git@github.com:" ++ (⟨X⟩ : String)) =
      .ok ("https://github.com/" ++ (⟨X⟩ : String)) := by
  unfold convertSshToHttps
  have hstart : jsStartsWith "git@" ("git@github.com:" ++ (⟨X⟩ : String)) = true := by
    rw [jsStartsWith_append_left _ (by decide)]
    decide
  rw [if_pos hstart]
  have hdata : ("git@github.com:" ++ (⟨X⟩ : String)).data =
      "git@".data ++ ("github.com".data ++ ':' :: X) := by
    rw [String.data_append]
    have hlit : "git@github.com:".data =
        "git@".data ++ ("github.com".data ++ [':']) := by decide
    rw [hlit]
    simp [List.append_assoc]
  dsimp only
  rw [hdata, List.drop_left' (by decide)]
  rw [takeWhile_append_all _ (by decide)]
  rw [List.takeWhile_cons, if_neg (by decide), List.append_nil]
  rw [List.drop_left]
  split
  · rename_i path heq
    injection heq with h1 h2
    subst h2
    rw [if_pos ⟨by decide, hne, fun hc => hnl (List.elem_iff.mp hc)⟩]
    rfl
  · rename_i h
    exact absurd rfl (h X)

theorem shorthandMatch_ownerSlash {o : String} {rest : List Char}
    (hoW : ∀ c ∈ o.data, isWordDashChar c = true) (hone : o.data ≠ [])
    (hhead : ∃ c t, rest = c :: t ∧ isWordDashChar c = true) :
    shorthandMatch (o.data ++ '/' :: rest) = true := by
  unfold shorthandMatch
  apply decide_eq_true
  constructor
  · rw [takeWhile_append_all _ hoW, List.takeWhile_cons, if_neg (by decide),
      List.append_nil]
    exact hone
  · rw [dropWhile_append_all _ hoW, List.dropWhile_cons, if_neg (by decide)]
    rcases hhead with ⟨c, t, rfl, hcW⟩
    show shorthandTail ('/' :: c :: t) = true
    unfold shorthandTail
    apply decide_eq_true
    rw [List.takeWhile_cons, if_pos hcW]
    simp

theorem joinSlash_seg {chunks : List String}
    (hall : ∀ s ∈ chunks, ∀ c ∈ s.data, urlSegChar c = true) :
    ∀ c ∈ joinSlashData chunks, c = '/' ∨ urlSegChar c = true := by
  intro c hc
  rcases mem_joinSlashData hc with h | ⟨s, hsm, hcs⟩
  · exact Or.inl h
  · exact Or.inr (hall s hsm c hcs)

theorem joinSlash_ne_nil {chunks : List String} (hne : chunks ≠ [])
    (hch : ∀ s ∈ chunks, s.data ≠ []) : joinSlashData chunks ≠ [] := by
  cases chunks with
  | nil => exact absurd rfl hne
  | cons a t =>
    cases t with
    | nil => exact hch a (List.mem_cons_self _ _)
    | cons b t2 =>
      show a.data ++ '/' :: joinSlashData (b :: t2) ≠ []
      simp

theorem parseSkillUrl_https_canonical (chunks : List String) (hne : chunks ≠ [])
    (hch : ∀ s ∈ chunks, s ≠ "" ∧ ∀ x ∈ s.data, x ≠ '/' ∧ x ≠ '?' ∧ x ≠ '#')
    (hall : ∀ s ∈ chunks, ∀ c ∈ s.data, urlSegChar c = true) :
    parseSkillUrl ("https://github.com/" ++ (⟨joinSlashData chunks⟩ : String)) =
      parseGitHostUrl "github.com" chunks
        ("https://github.com/" ++ (⟨joinSlashData chunks⟩ : String)) := by
  have hseg := joinSlash_seg hall
  have htrim : jsTrim ("https://github.com/" ++ (⟨joinSlashData chunks⟩ : String)) =
      "https://github.com/" ++ (⟨joinSlashData chunks⟩ : String) := by
    apply jsTrim_eq_self
    exact all_data_append (P := fun c => isJsSpace c = false) (by decide)
      (fun c hc => by
        rcases hseg c hc with rfl | hu
        · decide
        · exact (urlSegChar_facts hu).1)
  have hgit : jsStartsWith "git@"
      ("https://github.com/" ++ (⟨joinSlashData chunks⟩ : String)) = false := by
    apply jsStartsWith_false_of_mem (c := '@') (by decide)
    apply not_mem_of_all_ne
    exact all_data_append (P := fun c => c ≠ '@') (by decide)
      (fun c hc => by
        rcases hseg c hc with rfl | hu
        · decide
        · exact (urlSegChar_facts hu).2.2.2.1)
  have hhttps : jsStartsWith "https://"
      ("https://github.com/" ++ (⟨joinSlashData chunks⟩ : String)) = true := by
    rw [jsStartsWith_append_left _ (by decide)]
    decide
  apply parseSkillUrl_via_github
    (w := "https://github.com/" ++ (⟨joinSlashData chunks⟩ : String)) ?_ ?_ hne hch
  · rw [htrim, if_neg (by simp [hgit])]
  · rw [if_neg (by simp [hhttps])]

theorem parseSkillUrl_ssh_canonical (chunks : List String) (hne : chunks ≠ [])
    (hch : ∀ s ∈ chunks, s ≠ "" ∧ ∀ x ∈ s.data, x ≠ '/' ∧ x ≠ '?' ∧ x ≠ '#')
    (hall : ∀ s ∈ chunks, ∀ c ∈ s.data, urlSegChar c = true)
    (hnil : ∀ s ∈ chunks, s.data ≠ []) :
    parseSkillUrl ("git@github.com:" ++ (⟨joinSlashData chunks⟩ : String)) =
      parseGitHostUrl "github.com" chunks
        ("git@github.com:" ++ (⟨joinSlashData chunks⟩ : String)) := by
  have hseg := joinSlash_seg hall
  have hXne : joinSlashData chunks ≠ [] := joinSlash_ne_nil hne hnil
  have hXnl : '\n' ∉ joinSlashData chunks := by
    intro hmem
    rcases hseg _ hmem with h | hu
    · exact absurd h (by decide)
    · exact (urlSegChar_facts hu).2.2.2.2.2.2 rfl
  have htrim : jsTrim ("git@github.com:" ++ (⟨joinSlashData chunks⟩ : String)) =
      "git@github.com:" ++ (⟨joinSlashData chunks⟩ : String) := by
    apply jsTrim_eq_self
    exact all_data_append (P := fun c => isJsSpace c = false) (by decide)
      (fun c hc => by
        rcases hseg c hc with rfl | hu
        · decide
        · exact (urlSegChar_facts hu).1)
  have hgit : jsStartsWith "git@"
      ("git@github.com:" ++ (⟨joinSlashData chunks⟩ : String)) = true := by
    rw [jsStartsWith_append_left _ (by decide)]
    decide
  have hhttps : jsStartsWith "https://"
      ("https://github.com/" ++ (⟨joinSlashData chunks⟩ : String)) = true := by
    rw [jsStartsWith_append_left _ (by decide)]
    decide
  apply parseSkillUrl_via_github
    (w := "https://github.com/" ++ (⟨joinSlashData chunks⟩ : String)) ?_ ?_ hne hch
  · rw [htrim, if_pos hgit, convertSsh_github hXne hXnl]
  · rw [if_neg (by simp [hhttps])]

theorem parseSkillUrl_shorthand_canonical (chunks : List String) (hne : chunks ≠ [])
    (hch : ∀ s ∈ chunks, s ≠ "" ∧ ∀ x ∈ s.data, x ≠ '/' ∧ x ≠ '?' ∧ x ≠ '#')
    (hallW : ∀ s ∈ chunks, ∀ c ∈ s.data, isWordDashChar c = true)
    (hshort : shorthandMatch (joinSlashData chunks) = true) :
    parseSkillUrl (⟨joinSlashData chunks⟩ : String) =
      parseGitHostUrl "github.com" chunks (⟨joinSlashData chunks⟩ : String) := by
  have hseg : ∀ c ∈ ((⟨joinSlashData chunks⟩ : String)).data,
      c = '/' ∨ isWordDashChar c = true := by
    intro c hc
    rcases mem_joinSlashData hc with h | ⟨s, hsm, hcs⟩
    · exact Or.inl h
    · exact Or.inr (hallW s hsm c hcs)
  have htrim : jsTrim (⟨joinSlashData chunks⟩ : String) =
      (⟨joinSlashData chunks⟩ : String) := by
    apply jsTrim_eq_self
    intro c hc
    rcases hseg c hc with rfl | hu
    · decide
    · exact (isWordDashChar_facts hu).1
  have hnoat : jsStartsWith "git@" (⟨joinSlashData chunks⟩ : String) = false := by
    apply jsStartsWith_false_of_mem (c := '@') (by decide)
    apply not_mem_of_all_ne
    intro c hc
    rcases hseg c hc with rfl | hu
    · decide
    · exact (isWordDashChar_facts hu).2.2.2.1
  have hnocolon : ':' ∉ ((⟨joinSlashData chunks⟩ : String)).data := by
    apply not_mem_of_all_ne
    intro c hc
    rcases hseg c hc with rfl | hu
    · decide
    · exact (isWordDashChar_facts hu).2.2.1
  have hnodot : '.' ∉ ((⟨joinSlashData chunks⟩ : String)).data := by
    apply not_mem_of_all_ne
    intro c hc
    rcases hseg c hc with rfl | hu
    · decide
    · exact (isWordDashChar_facts hu).2.2.2.2.1
  have hhttpF : jsStartsWith "http://" (⟨joinSlashData chunks⟩ : String) = false :=
    jsStartsWith_false_of_mem (c := ':') (by decide) hnocolon
  have hhttpsF : jsStartsWith "https://" (⟨joinSlashData chunks⟩ : String) = false :=
    jsStartsWith_false_of_mem (c := ':') (by decide) hnocolon
  have hghF : jsStartsWith "github.com/" (⟨joinSlashData chunks⟩ : String) = false :=
    jsStartsWith_false_of_mem (c := '.') (by decide) hnodot
  apply parseSkillUrl_via_github (w := (⟨joinSlashData chunks⟩ : String)) ?_ ?_ hne hch
  · rw [htrim, if_neg (by simp [hnoat])]
  · rw [if_pos (by simp [hhttpF, hhttpsF])]
    unfold inferProtocol
    rw [if_neg (by simp [hghF])]
    rw [if_pos (show shorthandMatch ((⟨joinSlashData chunks⟩ : String)).data = true
      from hshort)]

/-- C6: identity stability.  For any owner, repo and skill made of word
characters and hyphens (skill not a ref keyword), the canonical https URL,
the same URL with a trailing `.git`, the SSH remote form, and the bare
`owner/repo` shorthand all parse to one canonical lowercased id, and the
`tree/<ref>/skills/<skill>` URL and the `owner/repo/skill` shorthand both
parse to that id extended by the lowercased skill name. -/
theorem parseSource_identity_stable (owner repo skill : String)
    (ho : segPlain owner) (hr : segPlain repo) (hs : segPlain skill)
    (ht : skill ≠ "tree") (hb : skill ≠ "blob") :
    ∃ base,
      (parseSkillUrl ("https://github.com/" ++ owner ++ "/" ++ repo)).map
        (fun pr => pr.id) = .ok base ∧
      (parseSkillUrl ("https://github.com/" ++ owner ++ "/" ++ repo ++ ".git")).map
        (fun pr => pr.id) = .ok base ∧
      (parseSkillUrl ("git@github.com:" ++ owner ++ "/" ++ repo ++ ".git")).map
        (fun pr => pr.id) = .ok base ∧
      (parseSkillUrl (owner ++ "/" ++ repo)).map (fun pr => pr.id) = .ok base ∧
      (parseSkillUrl ("https://github.com/" ++ owner ++ "/" ++ repo ++
          "/tree/main/skills/" ++ skill)).map (fun pr => pr.id) =
        .ok (base ++ "/" ++ jsToLower skill) ∧
      (parseSkillUrl (owner ++ "/" ++ repo ++ "/" ++ skill)).map (fun pr => pr.id) =
        .ok (base ++ "/" ++ jsToLower skill) := by
  have hoW : ∀ c ∈ owner.data, isWordDashChar c = true := List.all_eq_true.mp ho.2
  have hrW : ∀ c ∈ repo.data, isWordDashChar c = true := List.all_eq_true.mp hr.2
  have hsW : ∀ c ∈ skill.data, isWordDashChar c = true := List.all_eq_true.mp hs.2
  have hoU : ∀ c ∈ owner.data, urlSegChar c = true := by
    intro c hc; simp [urlSegChar, hoW c hc]
  have hrU : ∀ c ∈ repo.data, urlSegChar c = true := by
    intro c hc; simp [urlSegChar, hrW c hc]
  have hsU : ∀ c ∈ skill.data, urlSegChar c = true := by
    intro c hc; simp [urlSegChar, hsW c hc]
  have hrgU : ∀ c ∈ (repo ++ ".git").data, urlSegChar c = true :=
    all_data_append hrU (by decide)
  have hrgne : (repo ++ ".git").data ≠ [] := by
    rw [String.data_append]
    exact List.append_ne_nil_of_right_ne_nil _ (by decide)
  have mkChunk : ∀ (s : String), s.data ≠ [] → (∀ c ∈ s.data, urlSegChar c = true) →
      s ≠ "" ∧ ∀ x ∈ s.data, x ≠ '/' ∧ x ≠ '?' ∧ x ≠ '#' := by
    intro s hne hall
    refine ⟨fun h => hne (by rw [h]), fun x hx => ?_⟩
    have hf := urlSegChar_facts (hall x hx)
    exact ⟨hf.2.1, hf.2.2.2.2.1, hf.2.2.2.2.2.1⟩
  have hch2 : ∀ s ∈ [owner, repo],
      s ≠ "" ∧ ∀ x ∈ s.data, x ≠ '/' ∧ x ≠ '?' ∧ x ≠ '#' := by
    intro s hsm
    rcases List.mem_cons.mp hsm with rfl | hsm
    · exact mkChunk _ ho.1 hoU
    rcases List.mem_cons.mp hsm with rfl | hsm
    · exact mkChunk _ hr.1 hrU
    · exact absurd hsm (List.not_mem_nil s)
  have hch2g : ∀ s ∈ [owner, repo ++ ".git"],
      s ≠ "" ∧ ∀ x ∈ s.data, x ≠ '/' ∧ x ≠ '?' ∧ x ≠ '#' := by
    intro s hsm
    rcases List.mem_cons.mp hsm with rfl | hsm
    · exact mkChunk _ ho.1 hoU
    rcases List.mem_cons.mp hsm with rfl | hsm
    · exact mkChunk _ hrgne hrgU
    · exact absurd hsm (List.not_mem_nil s)
  have hch6 : ∀ s ∈ [owner, repo, "tree", "main", "skills", skill],
      s ≠ "" ∧ ∀ x ∈ s.data, x ≠ '/' ∧ x ≠ '?' ∧ x ≠ '#' := by
    intro s hsm
    rcases List.mem_cons.mp hsm with rfl | hsm
    · exact mkChunk _ ho.1 hoU
    rcases List.mem_cons.mp hsm with rfl | hsm
    · exact mkChunk _ hr.1 hrU
    rcases List.mem_cons.mp hsm with rfl | hsm
    · exact mkChunk _ (by decide) (by decide)
    rcases List.mem_cons.mp hsm with rfl | hsm
    · exact mkChunk _ (by decide) (by decide)
    rcases List.mem_cons.mp hsm with rfl | hsm
    · exact mkChunk _ (by decide) (by decide)
    rcases List.mem_cons.mp hsm with rfl | hsm
    · exact mkChunk _ hs.1 hsU
    · exact absurd hsm (List.not_mem_nil s)
  have hch3 : ∀ s ∈ [owner, repo, skill],
      s ≠ "" ∧ ∀ x ∈ s.data, x ≠ '/' ∧ x ≠ '?' ∧ x ≠ '#' := by
    intro s hsm
    rcases List.mem_cons.mp hsm with rfl | hsm
    · exact mkChunk _ ho.1 hoU
    rcases List.mem_cons.mp hsm with rfl | hsm
    · exact mkChunk _ hr.1 hrU
    rcases List.mem_cons.mp hsm with rfl | hsm
    · exact mkChunk _ hs.1 hsU
    · exact absurd hsm (List.not_mem_nil s)
  have hallU2 : ∀ s ∈ [owner, repo], ∀ c ∈ s.data, urlSegChar c = true := by
    intro s hsm
    rcases List.mem_cons.mp hsm with rfl | hsm
    · exact hoU
    rcases List.mem_cons.mp hsm with rfl | hsm
    · exact hrU
    · exact absurd hsm (List.not_mem_nil s)
  have hallU2g : ∀ s ∈ [owner, repo ++ ".git"], ∀ c ∈ s.data, urlSegChar c = true := by
    intro s hsm
    rcases List.mem_cons.mp hsm with rfl | hsm
    · exact hoU
    rcases List.mem_cons.mp hsm with rfl | hsm
    · exact hrgU
    · exact absurd hsm (List.not_mem_nil s)
  have hallU6 : ∀ s ∈ [owner, repo, "tree", "main", "skills", skill],
      ∀ c ∈ s.data, urlSegChar c = true := by
    intro s hsm
    rcases List.mem_cons.mp hsm with rfl | hsm
    · exact hoU
    rcases List.mem_cons.mp hsm with rfl | hsm
    · exact hrU
    rcases List.mem_cons.mp hsm with rfl | hsm
    · exact (by decide)
    rcases List.mem_cons.mp hsm with rfl | hsm
    · exact (by decide)
    rcases List.mem_cons.mp hsm with rfl | hsm
    · exact (by decide)
    rcases List.mem_cons.mp hsm with rfl | hsm
    · exact hsU
    · exact absurd hsm (List.not_mem_nil s)
  have hallW2 : ∀ s ∈ [owner, repo], ∀ c ∈ s.data, isWordDashChar c = true := by
    intro s hsm
    rcases List.mem_cons.mp hsm with rfl | hsm
    · exact hoW
    rcases List.mem_cons.mp hsm with rfl | hsm
    · exact hrW
    · exact absurd hsm (List.not_mem_nil s)
  have hallW3 : ∀ s ∈ [owner, repo, skill],
      ∀ c ∈ s.data, isWordDashChar c = true := by
    intro s hsm
    rcases List.mem_cons.mp hsm with rfl | hsm
    · exact hoW
    rcases List.mem_cons.mp hsm with rfl | hsm
    · exact hrW
    rcases List.mem_cons.mp hsm with rfl | hsm
    · exact hsW
    · exact absurd hsm (List.not_mem_nil s)
  have hrhead : ∃ c t, repo.data = c :: t ∧ isWordDashChar c = true := by
    cases hrd : repo.data with
    | nil => exact absurd hrd hr.1
    | cons c t =>
      refine ⟨c, t, rfl, hrW c ?_⟩
      rw [hrd]
      exact List.mem_cons_self _ _
  have hshort2 : shorthandMatch (joinSlashData [owner, repo]) = true := by
    show shorthandMatch (owner.data ++ '/' :: repo.data) = true
    exact shorthandMatch_ownerSlash hoW ho.1 hrhead
  have hshort3 : shorthandMatch (joinSlashData [owner, repo, skill]) = true := by
    show shorthandMatch (owner.data ++ '/' :: (repo.data ++ '/' :: skill.data)) = true
    apply shorthandMatch_ownerSlash hoW ho.1
    rcases hrhead with ⟨c, t, hrd, hcW⟩
    refine ⟨c, t ++ '/' :: skill.data, ?_, hcW⟩
    rw [hrd]
    simp
  have hslash : ("/" : String).data = ['/'] := by decide
  have hstripr : stripGitSuffix repo = repo :=
    stripGitSuffix_of_no_dot
      (not_mem_of_all_ne (fun c hc => (isWordDashChar_facts (hrW c hc)).2.2.2.2.1))
  have hnodots : '.' ∉ skill.data :=
    not_mem_of_all_ne (fun c hc => (isWordDashChar_facts (hsW c hc)).2.2.2.2.1)
  have hlskne : jsToLower skill ≠ "" := jsToLower_ne_empty hs.1
  have hsp1 : normalizeSkillPath [skill] = jsToLower skill :=
    normalizeSkillPath_single (jsToLower_no_dot hnodots)
  have hsp2 : normalizeSkillPath ["skills", skill] = jsToLower skill :=
    normalizeSkillPath_skills_pair (jsToLower_no_dot hnodots)
  have hu1 : ("https://github.com/" ++ owner ++ "/" ++ repo : String) =
      "https://github.com/" ++ (⟨joinSlashData [owner, repo]⟩ : String) := by
    apply String.ext
    show _ = "https://github.com/".data ++ (owner.data ++ '/' :: repo.data)
    simp [String.data_append, hslash, List.append_assoc]
  have hu2 : ("https://github.com/" ++ owner ++ "/" ++ repo ++ ".git" : String) =
      "https://github.com/" ++ (⟨joinSlashData [owner, repo ++ ".git"]⟩ : String) := by
    apply String.ext
    show _ = "https://github.com/".data ++ (owner.data ++ '/' :: (repo ++ ".git").data)
    simp [String.data_append, hslash, List.append_assoc]
  have hu3 : ("git@github.com:" ++ owner ++ "/" ++ repo ++ ".git" : String) =
      "git@github.com:" ++ (⟨joinSlashData [owner, repo ++ ".git"]⟩ : String) := by
    apply String.ext
    show _ = "git@github.com:".data ++ (owner.data ++ '/' :: (repo ++ ".git").data)
    simp [String.data_append, hslash, List.append_assoc]
  have hu4 : (owner ++ "/" ++ repo : String) =
      (⟨joinSlashData [owner, repo]⟩ : String) := by
    apply String.ext
    show _ = owner.data ++ '/' :: repo.data
    simp [String.data_append, hslash, List.append_assoc]
  have hlit5 : ("/tree/main/skills/" : String).data =
      '/' :: ("tree".data ++ '/' :: ("main".data ++ '/' :: ("skills".data ++ ['/']))) := by
    decide
  have hu5 : ("https://github.com/" ++ owner ++ "/" ++ repo ++
        "/tree/main/skills/" ++ skill : String) =
      "https://github.com/" ++
        (⟨joinSlashData [owner, repo, "tree", "main", "skills", skill]⟩ : String) := by
    apply String.ext
    show _ = "https://github.com/".data ++
      (owner.data ++ '/' :: (repo.data ++ '/' ::
        ("tree".data ++ '/' :: ("main".data ++ '/' ::
          ("skills".data ++ '/' :: skill.data)))))
    simp [String.data_append, hslash, hlit5, List.append_assoc]
  have hu6 : (owner ++ "/" ++ repo ++ "/" ++ skill : String) =
      (⟨joinSlashData [owner, repo, skill]⟩ : String) := by
    apply String.ext
    show _ = owner.data ++ '/' :: (repo.data ++ '/' :: skill.data)
    simp [String.data_append, hslash, List.append_assoc]
  have hnil2g : ∀ s ∈ [owner, repo ++ ".git"], s.data ≠ [] := by
    intro s hsm
    rcases List.mem_cons.mp hsm with rfl | hsm
    · exact ho.1
    rcases List.mem_cons.mp hsm with rfl | hsm
    · exact hrgne
    · exact absurd hsm (List.not_mem_nil s)
  have hjoin4 : ∀ (d : String),
      joinSep "/" ["github.com", jsToLower owner, jsToLower repo, d] =
        joinSep "/" ["github.com", jsToLower owner, jsToLower repo] ++ "/" ++ d := by
    intro d
    apply String.ext
    simp [joinSep, String.data_append, List.append_assoc]
  refine ⟨joinSep "/" ["github.com", jsToLower owner, jsToLower repo],
    ?_, ?_, ?_, ?_, ?_, ?_⟩
  · rw [hu1, parseSkillUrl_https_canonical [owner, repo] (by simp) hch2 hallU2,
      parseGitHostUrl_id_two, hstripr]
  · rw [hu2,
      parseSkillUrl_https_canonical [owner, repo ++ ".git"] (by simp) hch2g hallU2g,
      parseGitHostUrl_id_two, stripGitSuffix_append_git]
  · rw [hu3, parseSkillUrl_ssh_canonical [owner, repo ++ ".git"] (by simp) hch2g
      hallU2g hnil2g, parseGitHostUrl_id_two, stripGitSuffix_append_git]
  · rw [hu4, parseSkillUrl_shorthand_canonical [owner, repo] (by simp) hch2
      hallW2 hshort2, parseGitHostUrl_id_two, hstripr]
  · rw [hu5, parseSkillUrl_https_canonical
      [owner, repo, "tree", "main", "skills", skill] (by simp) hch6 hallU6,
      parseGitHostUrl_id_tree owner repo skill _ hsp2 hlskne, hstripr, hjoin4]
  · rw [hu6, parseSkillUrl_shorthand_canonical [owner, repo, skill] (by simp) hch3
      hallW3 hshort3,
      parseGitHostUrl_id_three owner repo skill _ ht hb hsp1 hlskne, hstripr, hjoin4]

/-- Witness for the identity-stability theorem at a concrete owner, repo and
skill. -/
theorem parseSource_identity_stable_witness :
    ∃ base,
      (parseSkillUrl ("https://github.com/" ++ "acme" ++ "/" ++ "tools")).map
        (fun pr => pr.id) = .ok base ∧
      (parseSkillUrl ("https://github.com/" ++ "acme" ++ "/" ++ "tools" ++ ".git")).map
        (fun pr => pr.id) = .ok base ∧
      (parseSkillUrl ("git@github.com:" ++ "acme" ++ "/" ++ "tools" ++ ".git")).map
        (fun pr => pr.id) = .ok base ∧
      (parseSkillUrl ("acme" ++ "/" ++ "tools")).map (fun pr => pr.id) = .ok base ∧
      (parseSkillUrl ("https://github.com/" ++ "acme" ++ "/" ++ "tools" ++
          "/tree/main/skills/" ++ "hello")).map (fun pr => pr.id) =
        .ok (base ++ "/" ++ jsToLower "hello") ∧
      (parseSkillUrl ("acme" ++ "/" ++ "tools" ++ "/" ++ "hello")).map
        (fun pr => pr.id) = .ok (base ++ "/" ++ jsToLower "hello") :=
  parseSource_identity_stable "acme" "tools" "hello" (by decide) (by decide)
    (by decide) (by decide) (by decide)

theorem foldl_normStep_plain {p : List String} (hp : plainSegs p) :
    ∀ acc, p.foldl normStep acc = acc ++ p := by
  induction p with
  | nil => intro acc; simp
  | cons a t ih =>
    intro acc
    have ha := hp a (List.mem_cons_self _ _)
    have hstep : normStep acc a = acc ++ [a] := by
      unfold normStep
      rw [if_neg ha.1, if_neg (by simp [ha.2.1, ha.2.2])]
    rw [List.foldl_cons, hstep,
      ih (fun s hs => hp s (List.mem_cons_of_mem _ hs)) (acc ++ [a])]
    simp

theorem normalizeSegs_plain {p : List String} (hp : plainSegs p) :
    normalizeSegs p = p := by
  unfold normalizeSegs
  simpa using foldl_normStep_plain hp []

theorem commonPrefixLen_le (a : List String) : ∀ b, commonPrefixLen a b ≤ a.length := by
  induction a with
  | nil => intro b; cases b <;> simp [commonPrefixLen]
  | cons x xs ih =>
    intro b
    cases b with
    | nil => simp [commonPrefixLen]
    | cons y ys =>
      unfold commonPrefixLen
      split
      · exact Nat.succ_le_succ (ih ys)
      · exact Nat.zero_le _

theorem commonPrefixLen_take (a : List String) :
    ∀ b, a.take (commonPrefixLen a b) = b.take (commonPrefixLen a b) := by
  induction a with
  | nil => intro b; cases b <;> simp [commonPrefixLen]
  | cons x xs ih =>
    intro b
    cases b with
    | nil => simp [commonPrefixLen]
    | cons y ys =>
      unfold commonPrefixLen
      split
      · rename_i hxy
        rw [List.take_succ_cons, List.take_succ_cons, hxy, ih ys]
      · simp

theorem foldl_normStep_replicate :
    ∀ (n : Nat) (acc : List String),
      (List.replicate n ".." : List String).foldl normStep acc =
        acc.take (acc.length - n) := by
  intro n
  induction n with
  | zero => intro acc; simp
  | succ k ih =>
    intro acc
    have hstep : normStep acc ".." = acc.dropLast := by
      unfold normStep
      rw [if_pos rfl]
    rw [List.replicate_succ, List.foldl_cons, hstep, ih]
    have hdl : acc.dropLast.length = acc.length - 1 := List.length_dropLast acc
    rw [hdl, List.dropLast_eq_take, List.take_take]
    rw [min_eq_left (by omega : acc.length - 1 - k ≤ acc.length - 1)]
    congr 1
    omega

theorem resolveFrom_relSegs {d t : List String} (hd : plainSegs d) (ht : plainSegs t) :
    resolveFrom d (.rel (relSegs d t)) = t := by
  show normalizeSegs (d ++ relSegs d t) = t
  unfold normalizeSegs relSegs
  rw [List.foldl_append, List.foldl_append]
  rw [show d.foldl normStep [] = d from by simpa using foldl_normStep_plain hd []]
  rw [foldl_normStep_replicate]
  rw [Nat.sub_sub_self (commonPrefixLen_le d t)]
  rw [commonPrefixLen_take d t]
  rw [foldl_normStep_plain (fun s hs => ht s (List.mem_of_mem_drop hs))]
  exact List.take_append_drop _ _

theorem mkdirRec_some {fs : Fs} {p q : FsPath} (h1 : q ≠ [])
    (h2 : q.isPrefixOf p = true) : mkdirRec fs p q ≠ none := by
  unfold mkdirRec
  split
  · simp
  · rename_i hcond
    intro hnone
    exact hcond ⟨h1, h2, hnone⟩

theorem mkdirRec_noop {fs : Fs} {p : FsPath}
    (h : ∀ q, q ≠ [] → q.isPrefixOf p = true → fs q ≠ none) :
    mkdirRec fs p = fs := by
  funext q
  unfold mkdirRec
  rw [if_neg]
  rintro ⟨h1, h2, h3⟩
  exact h q h1 h2 h3

theorem mkdirRec_idem (fs : Fs) (p : FsPath) :
    mkdirRec (mkdirRec fs p) p = mkdirRec fs p :=
  mkdirRec_noop (fun _ h1 h2 => mkdirRec_some h1 h2)

theorem not_prefixOf_concat (p : FsPath) (x : String) :
    ¬ ((p ++ [x]).isPrefixOf p = true) := by
  intro h
  have := (List.isPrefixOf_iff_prefix.mp h).length_le
  simp at this

theorem dropWhile_head_false {p : Char → Bool} {l : List Char} {c : Char}
    {t : List Char} (h : l.dropWhile p = c :: t) : p c = false := by
  induction l with
  | nil => simp [List.dropWhile] at h
  | cons x xs ih =>
    rw [List.dropWhile_cons] at h
    split at h
    · exact ih h
    · rename_i hpx
      injection h with h1 h2
      subst h1
      simpa using hpx

theorem take_eq_cons {l m : List Char} {c : Char} {n : Nat}
    (h : l.take n = c :: m) : ∃ t2, l = c :: t2 := by
  cases l with
  | nil => rw [List.take_nil] at h; exact absurd h (by simp)
  | cons a t =>
    cases n with
    | zero => simp at h
    | succ k =>
      rw [List.take_succ_cons] at h
      injection h with h1 h2
      exact ⟨t, by rw [h1]⟩

theorem stripEdges_head_false {l : List Char} {c : Char} {t : List Char}
    (h : stripEdges l = c :: t) : isDotDash c = false := by
  unfold stripEdges at h
  obtain ⟨C, hC⟩ :=
    (List.dropWhile_suffix isDotDash :
      (l.dropWhile isDotDash).reverse.dropWhile isDotDash <:+
        (l.dropWhile isDotDash).reverse)
  have hrev := congrArg List.reverse hC
  rw [List.reverse_append, List.reverse_reverse] at hrev
  rw [h] at hrev
  rw [List.cons_append] at hrev
  exact dropWhile_head_false hrev.symm

theorem sanitizeName_ne_empty (name : String) : sanitizeName name ≠ "" := by
  unfold sanitizeName
  dsimp only
  split
  · decide
  · rename_i h
    exact h

theorem sanitizeName_head_not_dotdash {name : String} {c : Char} {t : List Char}
    (h : (sanitizeName name).data = c :: t) : isDotDash c = false := by
  unfold sanitizeName jsTake at h
  dsimp only at h
  split at h
  · have h2 : ('u' :: "nnamed-skill".data : List Char) = c :: t := h
    injection h2 with h1 h3
    subst h1
    decide
  · have h2 : (stripEdges (collapseRuns (jsToLower name).data)).take 255 = c :: t := h
    obtain ⟨t2, hst⟩ := take_eq_cons h2
    exact stripEdges_head_false hst

theorem sanitizeName_plain (name : String) :
    sanitizeName name ≠ ".." ∧ sanitizeName name ≠ "." ∧ sanitizeName name ≠ "" := by
  refine ⟨?_, ?_, sanitizeName_ne_empty name⟩
  · intro hEq
    have hd : (sanitizeName name).data = '.' :: ['.'] := by rw [hEq]
    exact absurd (sanitizeName_head_not_dotdash hd) (by decide)
  · intro hEq
    have hd : (sanitizeName name).data = '.' :: [] := by rw [hEq]
    exact absurd (sanitizeName_head_not_dotdash hd) (by decide)

theorem createSymlink_eq_self {fs : Fs} {t lp : FsPath}
    (hself : normalizeSegs t = normalizeSegs lp) :
    createSymlink fs t lp = (true, fs) := by
  unfold createSymlink
  dsimp only
  rw [if_pos hself]

theorem createSymlink_eq_symlink {fs : Fs} {t lp : FsPath} {ex : FsLinkTarget}
    (hself : normalizeSegs t ≠ normalizeSegs lp)
    (hent : fs lp = some (.symlink ex)) :
    createSymlink fs t lp =
      if resolveFrom lp.dropLast ex = normalizeSegs t then (true, fs)
      else finishLink (rmKey fs lp) t lp := by
  unfold createSymlink
  dsimp only
  rw [if_neg hself, hent]

theorem createSymlink_eq_dir {fs : Fs} {t lp : FsPath}
    (hself : normalizeSegs t ≠ normalizeSegs lp) (hent : fs lp = some .dir) :
    createSymlink fs t lp = finishLink (rmSubtree fs lp) t lp := by
  unfold createSymlink
  dsimp only
  rw [if_neg hself, hent]

theorem createSymlink_eq_file {fs : Fs} {t lp : FsPath}
    (hself : normalizeSegs t ≠ normalizeSegs lp) (hent : fs lp = some .file) :
    createSymlink fs t lp = finishLink (rmSubtree fs lp) t lp := by
  unfold createSymlink
  dsimp only
  rw [if_neg hself, hent]

theorem createSymlink_eq_none {fs : Fs} {t lp : FsPath}
    (hself : normalizeSegs t ≠ normalizeSegs lp) (hent : fs lp = none) :
    createSymlink fs t lp = finishLink fs t lp := by
  unfold createSymlink
  dsimp only
  rw [if_neg hself, hent]

theorem finishLink_round (g : Fs) (t base : FsPath) (san : String)
    (hplt : plainSegs t) (hplb : plainSegs base)
    (hg : g (base ++ [san]) = none) :
    (finishLink g t (base ++ [san])).1 = true ∧
    mkdirRec (finishLink g t (base ++ [san])).2 base =
      (finishLink g t (base ++ [san])).2 ∧
    createSymlink (finishLink g t (base ++ [san])).2 t (base ++ [san]) =
      (true, (finishLink g t (base ++ [san])).2) := by
  have hlp : mkdirRec g base (base ++ [san]) = none := by
    unfold mkdirRec
    rw [if_neg]
    · exact hg
    · rintro ⟨-, h2, -⟩
      exact not_prefixOf_concat base san h2
  have hF : finishLink g t (base ++ [san]) =
      (true, setEntry (mkdirRec g base) (base ++ [san])
        (.symlink (.rel (relSegs base t)))) := by
    unfold finishLink
    dsimp only
    rw [List.dropLast_concat, if_pos hlp]
  rw [hF]
  have hentry : setEntry (mkdirRec g base) (base ++ [san])
      (.symlink (.rel (relSegs base t))) (base ++ [san]) =
      some (.symlink (.rel (relSegs base t))) := by
    unfold setEntry
    rw [if_pos rfl]
  refine ⟨rfl, ?_, ?_⟩
  · apply mkdirRec_noop
    intro q h1 h2
    dsimp only [setEntry]
    by_cases hq : q = base ++ [san]
    · subst hq
      exact absurd h2 (not_prefixOf_concat base san)
    · rw [if_neg hq]
      exact mkdirRec_some h1 h2
  · by_cases hself : normalizeSegs t = normalizeSegs (base ++ [san])
    · exact createSymlink_eq_self hself
    · rw [createSymlink_eq_symlink hself hentry]
      rw [if_pos (by
        rw [List.dropLast_concat, resolveFrom_relSegs hplb hplt,
          normalizeSegs_plain hplt])]

theorem createSymlink_round (fs : Fs) (t base : FsPath) (san : String)
    (hplt : plainSegs t) (hplb : plainSegs base)
    (hmk : mkdirRec fs base = fs) :
    (createSymlink fs t (base ++ [san])).1 = true ∧
    mkdirRec (createSymlink fs t (base ++ [san])).2 base =
      (createSymlink fs t (base ++ [san])).2 ∧
    createSymlink (createSymlink fs t (base ++ [san])).2 t (base ++ [san]) =
      (true, (createSymlink fs t (base ++ [san])).2) := by
  by_cases hself : normalizeSegs t = normalizeSegs (base ++ [san])
  · rw [createSymlink_eq_self hself]
    exact ⟨rfl, hmk, createSymlink_eq_self hself⟩
  · cases hent : fs (base ++ [san]) with
    | none =>
      have hcs := createSymlink_eq_none hself hent
      have R := finishLink_round fs t base san hplt hplb hent
      exact ⟨by rw [hcs]; exact R.1, by rw [hcs]; exact R.2.1,
        by rw [hcs]; exact R.2.2⟩
    | some e =>
      cases e with
      | dir =>
        have hcs := createSymlink_eq_dir hself hent
        have hg : rmSubtree fs (base ++ [san]) (base ++ [san]) = none := by
          unfold rmSubtree
          rw [if_pos (List.isPrefixOf_iff_prefix.mpr (List.prefix_refl _))]
        have R := finishLink_round (rmSubtree fs (base ++ [san])) t base san
          hplt hplb hg
        exact ⟨by rw [hcs]; exact R.1, by rw [hcs]; exact R.2.1,
          by rw [hcs]; exact R.2.2⟩
      | file =>
        have hcs := createSymlink_eq_file hself hent
        have hg : rmSubtree fs (base ++ [san]) (base ++ [san]) = none := by
          unfold rmSubtree
          rw [if_pos (List.isPrefixOf_iff_prefix.mpr (List.prefix_refl _))]
        have R := finishLink_round (rmSubtree fs (base ++ [san])) t base san
          hplt hplb hg
        exact ⟨by rw [hcs]; exact R.1, by rw [hcs]; exact R.2.1,
          by rw [hcs]; exact R.2.2⟩
      | symlink ex =>
        have hcs := createSymlink_eq_symlink hself hent
        by_cases hres : resolveFrom (base ++ [san]).dropLast ex = normalizeSegs t
        · rw [if_pos hres] at hcs
          rw [hcs]
          exact ⟨rfl, hmk, hcs⟩
        · rw [if_neg hres] at hcs
          have hg : rmKey fs (base ++ [san]) (base ++ [san]) = none := by
            unfold rmKey
            rw [if_pos rfl]
          have R := finishLink_round (rmKey fs (base ++ [san])) t base san
            hplt hplb hg
          exact ⟨by rw [hcs]; exact R.1, by rw [hcs]; exact R.2.1,
            by rw [hcs]; exact R.2.2⟩

theorem installToAgent_run (g : Fs) (canonicalPath : FsPath) (skillName : String)
    (agent : AgentConfig) (options : InstallOptions)
    (hscope : ¬ (options.globalScope.getD true = true ∧ agent.globalSkillsDir = none))
    (hplt : plainSegs canonicalPath)
    (hplb : plainSegs (agentBaseOf agent options)) :
    installToAgent g canonicalPath skillName agent options =
      ({ agent := agent.name, agentDisplayName := agent.displayName,
         path := agentBaseOf agent options ++ [sanitizeName skillName],
         mode := .symlink, success := true, error := none },
       (createSymlink (mkdirRec g (agentBaseOf agent options)) canonicalPath
         (agentBaseOf agent options ++ [sanitizeName skillName])).2) := by
  have hsan := sanitizeName_plain skillName
  have hplbs : plainSegs (agentBaseOf agent options ++ [sanitizeName skillName]) := by
    intro s hs
    rcases List.mem_append.mp hs with h | h
    · exact hplb s h
    · rcases List.mem_singleton.mp h with rfl
      exact hsan
  have hsafe : isPathSafeWithin (agentBaseOf agent options)
      (agentBaseOf agent options ++ [sanitizeName skillName]) = true := by
    unfold isPathSafeWithin
    rw [normalizeSegs_plain hplb, normalizeSegs_plain hplbs]
    exact List.isPrefixOf_iff_prefix.mpr (List.prefix_append _ _)
  have R := createSymlink_round (mkdirRec g (agentBaseOf agent options)) canonicalPath
    (agentBaseOf agent options) (sanitizeName skillName) hplt hplb
    (mkdirRec_idem g (agentBaseOf agent options))
  unfold installToAgent agentBaseOf
  dsimp only
  unfold agentBaseOf at hsafe R
  rw [if_neg hscope]
  rw [if_neg (show ¬ ¬ (isPathSafeWithin _ _ = true) by simp [hsafe])]
  rw [if_pos R.1]

/-- C7: `installToAgent` is idempotent.  For a canonical skill location, an
agent that supports the requested scope and a canonical agent base
directory, a call succeeds, a second identical call succeeds again, and the
filesystem after the second call is exactly the filesystem after the first
(the already-correct symlink is detected and left in place). -/
theorem installToAgent_idempotent (fs : Fs) (canonicalPath : FsPath)
    (skillName : String) (agent : AgentConfig) (options : InstallOptions)
    (hscope : ¬ (options.globalScope.getD true = true ∧ agent.globalSkillsDir = none))
    (hplt : plainSegs canonicalPath)
    (hplb : plainSegs (agentBaseOf agent options)) :
    (installToAgent fs canonicalPath skillName agent options).1.success = true ∧
    (installToAgent (installToAgent fs canonicalPath skillName agent options).2
        canonicalPath skillName agent options).1.success = true ∧
    (installToAgent (installToAgent fs canonicalPath skillName agent options).2
        canonicalPath skillName agent options).2 =
      (installToAgent fs canonicalPath skillName agent options).2 := by
  have h1 := installToAgent_run fs canonicalPath skillName agent options
    hscope hplt hplb
  have R := createSymlink_round (mkdirRec fs (agentBaseOf agent options)) canonicalPath
    (agentBaseOf agent options) (sanitizeName skillName) hplt hplb
    (mkdirRec_idem fs (agentBaseOf agent options))
  have h2 := installToAgent_run
    ((createSymlink (mkdirRec fs (agentBaseOf agent options)) canonicalPath
      (agentBaseOf agent options ++ [sanitizeName skillName])).2)
    canonicalPath skillName agent options hscope hplt hplb
  refine ⟨by rw [h1], by rw [h1]; rw [h2], ?_⟩
  rw [h1]
  rw [h2]
  rw [R.2.1, R.2.2]

/-- Witness for the idempotence theorem: a concrete empty filesystem,
canonical skill path, messy display name, and a global-scope agent. -/
theorem installToAgent_idempotent_witness :
    (installToAgent (fun _ => none) ["home", "u", ".vett", "skills", "hello"]
        "Hello World!"
        { name := "claude", displayName := "Claude", skillsDir := [".claude", "skills"],
          globalSkillsDir := some ["home", "u", ".claude", "skills"] }
        { globalScope := some true, cwd := [] }).1.success = true ∧
    (installToAgent
        (installToAgent (fun _ => none) ["home", "u", ".vett", "skills", "hello"]
          "Hello World!"
          { name := "claude", displayName := "Claude",
            skillsDir := [".claude", "skills"],
            globalSkillsDir := some ["home", "u", ".claude", "skills"] }
          { globalScope := some true, cwd := [] }).2
        ["home", "u", ".vett", "skills", "hello"] "Hello World!"
        { name := "claude", displayName := "Claude", skillsDir := [".claude", "skills"],
          globalSkillsDir := some ["home", "u", ".claude", "skills"] }
        { globalScope := some true, cwd := [] }).1.success = true ∧
    (installToAgent
        (installToAgent (fun _ => none) ["home", "u", ".vett", "skills", "hello"]
          "Hello World!"
          { name := "claude", displayName := "Claude",
            skillsDir := [".claude", "skills"],
            globalSkillsDir := some ["home", "u", ".claude", "skills"] }
          { globalScope := some true, cwd := [] }).2
        ["home", "u", ".vett", "skills", "hello"] "Hello World!"
        { name := "claude", displayName := "Claude", skillsDir := [".claude", "skills"],
          globalSkillsDir := some ["home", "u", ".claude", "skills"] }
        { globalScope := some true, cwd := [] }).2 =
      (installToAgent (fun _ => none) ["home", "u", ".vett", "skills", "hello"]
        "Hello World!"
        { name := "claude", displayName := "Claude", skillsDir := [".claude", "skills"],
          globalSkillsDir := some ["home", "u", ".claude", "skills"] }
        { globalScope := some true, cwd := [] }).2 :=
  installToAgent_idempotent (fun _ => none) ["home", "u", ".vett", "skills", "hello"]
    "Hello World!"
    { name := "claude", displayName := "Claude", skillsDir := [".claude", "skills"],
      globalSkillsDir := some ["home", "u", ".claude", "skills"] }
    { globalScope := some true, cwd := [] }
    (by decide) (by decide) (by decide)

end Vett
